import Mathlib

/-!
Verification of the ROS serialization core (`ros/serialization.h`).

The development shallowly embeds the serialization header: the byte-buffer
streams (`IStream`/`OStream` over the common `Stream` base), the length-only
`LStream`, the primitive / string / time / container codecs with their
trait-dispatched specializations, and the message-framing helpers
`serializeMessage` and `serializeServiceResponse`.

Machine integers are modelled as `Nat` with explicit reduction modulo `2^32`
exactly where the C++ performs 32-bit unsigned arithmetic.  Byte buffers are
`List Nat`; multi-byte primitives are laid out little-endian as a concrete
stand-in for the header's host-native layout (every property proved here is
independent of which byte order plays that role).  The supported value
universe is a deep embedding (`Value`) of the types the header serializes:
the ten numeric primitives (floats as raw bit patterns, since the codec only
ever copies their bytes), `bool`, `std::string`, `ros::Time`,
`ros::Duration`, `std::vector` and `boost::array`.
-/

namespace Ros.Serialization

/-- 2^32, the modulus of the header's `uint32_t` arithmetic. -/
def W32 : Nat := 4294967296

theorem W32_eq : W32 = 2 ^ 32 := by decide

theorem W32_pos : 0 < W32 := by decide

/-- Little-endian byte layout of the low `w` bytes of `x`: the concrete
stand-in for the header's host-native in-memory layout of a `w`-byte
primitive. -/
def natLE : Nat → Nat → List Nat
  | 0, _ => []
  | w + 1, x => x % 256 :: natLE w (x / 256)

/-- Read back a little-endian byte list as a natural number.  Each byte is
reduced modulo 256, mirroring the fact that a real memory cell holds eight
bits. -/
def leNat : List Nat → Nat
  | [] => 0
  | b :: bs => b % 256 + 256 * leNat bs

theorem natLE_length (w x : Nat) : (natLE w x).length = w := by
  induction w generalizing x with
  | zero => rfl
  | succ w ih => simp [natLE, ih]

theorem leNat_natLE (w x : Nat) : leNat (natLE w x) = x % 2 ^ (8 * w) := by
  induction w generalizing x with
  | zero => simp [natLE, leNat, Nat.mod_one]
  | succ w ih =>
    have hpow : 2 ^ (8 * (w + 1)) = 256 * 2 ^ (8 * w) := by
      rw [Nat.mul_succ, Nat.pow_add]
      norm_num [Nat.mul_comm]
    simp only [natLE, leNat, ih, hpow]
    rw [Nat.mod_mul]
    omega

theorem natLE_eq_of_mod_eq {w x y : Nat} (h : x % 2 ^ (8 * w) = y % 2 ^ (8 * w)) :
    natLE w x = natLE w y := by
  induction w generalizing x y with
  | zero => rfl
  | succ w ih =>
    have hpow : 2 ^ (8 * (w + 1)) = 256 * 2 ^ (8 * w) := by
      rw [Nat.mul_succ, Nat.pow_add]
      norm_num [Nat.mul_comm]
    rw [hpow] at h
    have hdvd : (256 : Nat) ∣ 256 * 2 ^ (8 * w) := Dvd.intro _ rfl
    have hlow : x % 256 = y % 256 := by
      have hx := Nat.mod_mod_of_dvd x hdvd
      have hy := Nat.mod_mod_of_dvd y hdvd
      rw [← hx, ← hy, h]
    have hhigh : x / 256 % 2 ^ (8 * w) = y / 256 % 2 ^ (8 * w) := by
      rw [← Nat.mod_mul_right_div_self x 256 (2 ^ (8 * w)),
        ← Nat.mod_mul_right_div_self y 256 (2 ^ (8 * w)), h]
    simp only [natLE, hlow, ih hhigh]

theorem natLE_four_mod_W32 (x : Nat) : natLE 4 (x % W32) = natLE 4 x := by
  apply natLE_eq_of_mod_eq
  rw [W32_eq]
  norm_num [Nat.mod_mod_of_dvd]

theorem leNat_natLE_four (x : Nat) : leNat (natLE 4 x) = x % W32 := by
  rw [leNat_natLE, W32_eq]

/-- Supported wire types: the primitives with `ROS_CREATE_SIMPLE_SERIALIZER`
specializations (floats carried as raw bit patterns), plus the dedicated
`bool`, `std::string`, `ros::Time` and `ros::Duration` specializations and
the two container shapes `std::vector` and `boost::array`. -/
inductive Ty where
  | u8 | i8 | u16 | i16 | u32 | i32 | u64 | i64 | f32 | f64
  | tbool
  | tstr
  | ttime
  | tduration
  | vec (t : Ty)
  | arr (t : Ty) (n : Nat)
deriving DecidableEq, Repr

/-- C++ `sizeof(T)` for the element types whose container codecs take the
bulk-copy path.  Only ever consulted for simple (numeric) types. -/
def Ty.csize : Ty → Nat
  | .u8 => 1 | .i8 => 1
  | .u16 => 2 | .i16 => 2
  | .u32 => 4 | .i32 => 4 | .f32 => 4
  | .u64 => 8 | .i64 => 8 | .f64 => 8
  | _ => 0

/-- Modelled from the spec: `mt::IsFixedSize<T>` (the `message_traits`
header is not part of this unit).  True iff every value of the type
serializes to the same number of bytes: all numeric primitives, `bool`,
the two-field time values, and fixed arrays of fixed-size elements; false
for strings and dynamic sequences. -/
def Ty.isFixedSize : Ty → Bool
  | .tstr => false
  | .vec _ => false
  | .arr t _ => t.isFixedSize
  | _ => true

/-- Modelled from the spec: `mt::IsSimple<T>` (the `message_traits` header
is not part of this unit).  True iff the type is fixed-size and a
contiguous run of values is byte-identical to its wire encoding: exactly
the numeric primitives; `bool` and aggregates are explicitly not simple. -/
def Ty.isSimple : Ty → Bool
  | .u8 | .i8 | .u16 | .i16 | .u32 | .i32 | .u64 | .i64 | .f32 | .f64 => true
  | _ => false

/-- Encoded byte width of any value of a fixed-size type (a function of the
type alone; meaningless for `tstr` and `vec`, which are not fixed-size). -/
def Ty.wireSize : Ty → Nat
  | .u8 => 1 | .i8 => 1 | .tbool => 1
  | .u16 => 2 | .i16 => 2
  | .u32 => 4 | .i32 => 4 | .f32 => 4
  | .u64 => 8 | .i64 => 8 | .f64 => 8
  | .ttime => 8 | .tduration => 8
  | .tstr => 0
  | .vec _ => 0
  | .arr t n => n * t.wireSize

theorem Ty.csize_eq_wireSize {t : Ty} (h : t.isSimple = true) :
    t.csize = t.wireSize := by
  cases t <;> simp_all [Ty.isSimple, Ty.csize, Ty.wireSize]

/-- Deep embedding of the serializable values.  Numeric values carry their
bit pattern as a `Nat` (signed integers and floats are only ever copied
byte-for-byte by these codecs, so the pattern is all that matters).
Containers carry the element type tag that drives the compile-time
specialization choice in the source. -/
inductive Value where
  | u8 (x : Nat) | i8 (x : Nat) | u16 (x : Nat) | i16 (x : Nat)
  | u32 (x : Nat) | i32 (x : Nat) | u64 (x : Nat) | i64 (x : Nat)
  | f32 (bits : Nat) | f64 (bits : Nat)
  | vbool (b : Bool)
  | vstr (bytes : List Nat)
  | vtime (sec nsec : Nat)
  | vduration (sec nsec : Nat)
  | vvec (t : Ty) (es : List Value)
  | varr (t : Ty) (es : List Value)
deriving Repr

instance : Inhabited Value := ⟨.u8 0⟩

/-- Static type of a value. -/
def Value.ty : Value → Ty
  | .u8 _ => .u8 | .i8 _ => .i8 | .u16 _ => .u16 | .i16 _ => .i16
  | .u32 _ => .u32 | .i32 _ => .i32 | .u64 _ => .u64 | .i64 _ => .i64
  | .f32 _ => .f32 | .f64 _ => .f64
  | .vbool _ => .tbool
  | .vstr _ => .tstr
  | .vtime _ _ => .ttime
  | .vduration _ _ => .tduration
  | .vvec t _ => .vec t
  | .varr t es => .arr t es.length

mutual

/-- Well-typedness: every container's elements all have the container's
declared element type (in C++ this holds by construction, a
`std::vector<T>` only holds `T`s). -/
def wt : Value → Bool
  | .vvec t es => wtl t es
  | .varr t es => wtl t es
  | _ => true

def wtl (t : Ty) : List Value → Bool
  | [] => true
  | e :: es => (e.ty == t) && wt e && wtl t es

end

mutual

/-- Representation validity: numeric bit patterns fit their width and
string bytes fit in a byte (automatic for the corresponding C++ types). -/
def wb : Value → Bool
  | .u8 x => x < 2 ^ 8 | .i8 x => x < 2 ^ 8
  | .u16 x => x < 2 ^ 16 | .i16 x => x < 2 ^ 16
  | .u32 x => x < 2 ^ 32 | .i32 x => x < 2 ^ 32
  | .u64 x => x < 2 ^ 64 | .i64 x => x < 2 ^ 64
  | .f32 x => x < 2 ^ 32 | .f64 x => x < 2 ^ 64
  | .vbool _ => true
  | .vstr bs => bs.all (fun b => b < 256)
  | .vtime s n => s < 2 ^ 32 && n < 2 ^ 32
  | .vduration s n => s < 2 ^ 32 && n < 2 ^ 32
  | .vvec _ es => wbl es
  | .varr _ es => wbl es

def wbl : List Value → Bool
  | [] => true
  | e :: es => wb e && wbl es

end

mutual

/-- No 32-bit count truncation: every dynamic-sequence length and string
length in the value is below `2^32`. -/
def bcnt : Value → Bool
  | .vstr bs => bs.length < W32
  | .vvec _ es => decide (es.length < W32) && bcntl es
  | .varr _ es => bcntl es
  | _ => true

def bcntl : List Value → Bool
  | [] => true
  | e :: es => bcnt e && bcntl es

end

/-- Buffered stream (the `Stream` base class shared by `IStream` and
`OStream`).  The C++ object holds two pointers `data_` and `end_` into a
caller-owned buffer; here `buf` is the whole buffer's contents, `pos` the
offset of `data_` from the buffer start and `ends` the offset of `end_`
(equal to the `count` passed to the constructor). -/
structure Stream where
  buf : List Nat
  pos : Nat
  ends : Nat
deriving Repr, DecidableEq

/-- Construct a stream over a buffer, as `IStream(data, count)` /
`OStream(data, count)` do: the cursor starts at the buffer start and the
end bound is `count` bytes in. -/
def Stream.mkOver (buf : List Nat) (count : Nat) : Stream :=
  ⟨buf, 0, count⟩

/-- Remaining space, `getLength`: `(uint32_t)(end_ - data_)` (natural
subtraction; a stream whose cursor has not passed `end_` never sees the
negative-difference wraparound). -/
def Stream.getLength (s : Stream) : Nat := s.ends - s.pos

/-- Stream::advance: saves the current position, moves the cursor forward
by `len`, and only then checks the bound — so on an overrun the failure is
signalled (first component `none`, the C++ `throwStreamOverrun()`) with
the cursor already past `end_`.  On success the pre-advance position is
returned for the caller to copy through. -/
def Stream.advance (s : Stream) (len : Nat) : Option Nat × Stream :=
  let old_data := s.pos
  let s' : Stream := { s with pos := s.pos + len }
  if s'.pos > s.ends then (none, s') else (some old_data, s')

/-- Overwrite `buf` starting at offset `i` with the bytes `bs` (the effect
of a `memcpy` into the region a successful `advance` returned). -/
def setBytes : List Nat → Nat → List Nat → List Nat
  | buf, _, [] => buf
  | buf, i, b :: bs => setBytes (buf.set i b) (i + 1) bs

/-- Read `n` bytes of `buf` starting at offset `i` (the effect of a
`memcpy` out of the region a successful `advance` returned). -/
def getBytes (buf : List Nat) (i n : Nat) : List Nat := (buf.drop i).take n

/-- Advance the write cursor past `n` reserved bytes and store `bs` at the
returned pre-advance position; on overrun the raised failure carries the
stream with its cursor past `end_` and the buffer untouched (the `memcpy`
after a throwing `advance` never runs).  Every primitive and bulk write in
the header is an instance of this advance-then-copy shape. -/
def writeChunk (s : Stream) (n : Nat) (bs : List Nat) : Except Stream Stream :=
  match s.advance n with
  | (none, e) => .error e
  | (some p, s') => .ok { s' with buf := setBytes s'.buf p bs }

/-- Advance the read cursor past `n` bytes and return them; on overrun the
raised failure carries the stream with its cursor past `end_`. -/
def readChunk (s : Stream) (n : Nat) : Except Stream (List Nat × Stream) :=
  match s.advance n with
  | (none, e) => .error e
  | (some p, s') => .ok (getBytes s'.buf p n, s')

/-- LStream::advance: `count_ += len` on the `uint32_t` counter.  The
argument is truncated to 32 bits at the call boundary (`advance` takes a
`uint32_t`) and the addition itself wraps. -/
def ladv (c len : Nat) : Nat := (c + len % W32) % W32

mutual

/-- Reference byte string of a value: the mathematical wire encoding
(count prefixes laid out through `natLE`, which itself only keeps the low
32 bits of a count).  For a simple element type this is also the in-memory
storage of a contiguous run, which is what the spec's `IsSimple` contract
certifies and what the bulk `memcpy` paths copy. -/
def enc : Value → List Nat
  | .u8 x => natLE 1 x
  | .i8 x => natLE 1 x
  | .u16 x => natLE 2 x
  | .i16 x => natLE 2 x
  | .u32 x => natLE 4 x
  | .i32 x => natLE 4 x
  | .u64 x => natLE 8 x
  | .i64 x => natLE 8 x
  | .f32 x => natLE 4 x
  | .f64 x => natLE 8 x
  | .vbool b => [if b then 1 else 0]
  | .vstr bs => natLE 4 bs.length ++ bs
  | .vtime sec nsec => natLE 4 sec ++ natLE 4 nsec
  | .vduration sec nsec => natLE 4 sec ++ natLE 4 nsec
  | .vvec _ es => natLE 4 es.length ++ encL es
  | .varr _ es => encL es

def encL : List Value → List Nat
  | [] => []
  | e :: es => enc e ++ encL es

end

/-- Exception propagation: run the continuation unless the first step
raised, in which case the raised stream state propagates unchanged (a C++
throw unwinding through the enclosing serializer). -/
def pipe {a b : Type} (x : Except Stream a) (f : a → Except Stream b) :
    Except Stream b :=
  match x with
  | .error e => .error e
  | .ok v => f v

@[simp] theorem pipe_ok {a b : Type} (v : a) (f : a → Except Stream b) :
    pipe (.ok v) f = f v := rfl

@[simp] theorem pipe_error {a b : Type} (e : Stream) (f : a → Except Stream b) :
    pipe (.error e) f = .error e := rfl

/-- Exception propagation for a step producing a pair (bytes and stream, or
value and stream). -/
def pipe2 {a b c : Type} (x : Except Stream (a × b)) (f : a → b → Except Stream c) :
    Except Stream c :=
  match x with
  | .error e => .error e
  | .ok (v, w) => f v w

@[simp] theorem pipe2_ok {a b c : Type} (v : a) (w : b)
    (f : a → b → Except Stream c) : pipe2 (.ok (v, w)) f = f v w := rfl

@[simp] theorem pipe2_error {a b c : Type} (e : Stream)
    (f : a → b → Except Stream c) : pipe2 (.error e) f = .error e := rfl

mutual

/-- The write pass, `Serializer<T>::write` dispatched over the value's
type.  Primitives reserve `sizeof` bytes through `advance` and store the
value's layout there; strings write `(uint32_t)size` then `memcpy` the
characters; Time/Duration write their two 4-byte fields through `next`;
vectors write `(uint32_t)size` then either one bulk `memcpy` of
`len * sizeof(T)` bytes (32-bit product, simple elements) or each element
in order; arrays are the same without the count.  A raised overrun aborts
the pass, carrying the stream as the throw left it. -/
def serialize : Value → Stream → Except Stream Stream
  | .u8 x, s => writeChunk s 1 (natLE 1 x)
  | .i8 x, s => writeChunk s 1 (natLE 1 x)
  | .u16 x, s => writeChunk s 2 (natLE 2 x)
  | .i16 x, s => writeChunk s 2 (natLE 2 x)
  | .u32 x, s => writeChunk s 4 (natLE 4 x)
  | .i32 x, s => writeChunk s 4 (natLE 4 x)
  | .u64 x, s => writeChunk s 8 (natLE 8 x)
  | .i64 x, s => writeChunk s 8 (natLE 8 x)
  | .f32 x, s => writeChunk s 4 (natLE 4 x)
  | .f64 x, s => writeChunk s 8 (natLE 8 x)
  | .vbool b, s => writeChunk s 1 [if b then 1 else 0]
  | .vstr bs, s =>
    pipe (writeChunk s 4 (natLE 4 bs.length)) fun s1 =>
      if 0 < bs.length then writeChunk s1 (bs.length % W32) bs else .ok s1
  | .vtime sec nsec, s =>
    pipe (writeChunk s 4 (natLE 4 sec)) fun s1 => writeChunk s1 4 (natLE 4 nsec)
  | .vduration sec nsec, s =>
    pipe (writeChunk s 4 (natLE 4 sec)) fun s1 => writeChunk s1 4 (natLE 4 nsec)
  | .vvec t es, s =>
    if t.isSimple then
      pipe (writeChunk s 4 (natLE 4 es.length)) fun s1 =>
        if es.isEmpty then .ok s1
        else
          let data_len := es.length % W32 * t.csize % W32
          writeChunk s1 data_len ((encL es).take data_len)
    else
      pipe (writeChunk s 4 (natLE 4 es.length)) fun s1 => serializeL es s1
  | .varr t es, s =>
    if t.isSimple then
      let data_len := es.length * t.csize % W32
      writeChunk s data_len ((encL es).take data_len)
    else serializeL es s

def serializeL : List Value → Stream → Except Stream Stream
  | [], s => .ok s
  | e :: es, s => pipe (serialize e s) fun s' => serializeL es s'

end

/-- Reinterpret `sizeof(t)` storage bytes as one simple element (the
element-level effect of the bulk `memcpy` in the simple container read
paths). -/
def decodeSimpleElem (t : Ty) (bs : List Nat) : Value :=
  match t with
  | .u8 => .u8 (leNat bs)
  | .i8 => .i8 (leNat bs)
  | .u16 => .u16 (leNat bs)
  | .i16 => .i16 (leNat bs)
  | .u32 => .u32 (leNat bs)
  | .i32 => .i32 (leNat bs)
  | .u64 => .u64 (leNat bs)
  | .i64 => .i64 (leNat bs)
  | .f32 => .f32 (leNat bs)
  | .f64 => .f64 (leNat bs)
  | _ => default

/-- Reinterpret a run of storage bytes as `n` simple elements of type `t`,
`sizeof` bytes each. -/
def readSimpleElems (t : Ty) : Nat → List Nat → List Value
  | 0, _ => []
  | n + 1, bs =>
    decodeSimpleElem t (bs.take t.csize) :: readSimpleElems t n (bs.drop t.csize)

mutual

/-- The read pass, `Serializer<T>::read` dispatched over the type.
Primitives reinterpret `sizeof` bytes past a checked `advance`; bool reads
one byte and treats any nonzero value as true; strings read the 4-byte
count then construct from that many bytes (clearing on a zero count);
vectors read the count, resize, then either bulk-`memcpy`
`sizeof(T) * len` bytes (32-bit product) into the elements' storage or
read each element in order; arrays are the same with the compile-time
count.  For a bulk copy shorter than the resized storage (only reachable
when the 32-bit product wraps) the tail keeps the value-initialized zero
bytes `resize` produced. -/
def deserialize : Ty → Stream → Except Stream (Value × Stream)
  | .u8, s =>
    pipe2 (readChunk s 1) fun bs s' => .ok (.u8 (leNat bs), s')
  | .i8, s =>
    pipe2 (readChunk s 1) fun bs s' => .ok (.i8 (leNat bs), s')
  | .u16, s =>
    pipe2 (readChunk s 2) fun bs s' => .ok (.u16 (leNat bs), s')
  | .i16, s =>
    pipe2 (readChunk s 2) fun bs s' => .ok (.i16 (leNat bs), s')
  | .u32, s =>
    pipe2 (readChunk s 4) fun bs s' => .ok (.u32 (leNat bs), s')
  | .i32, s =>
    pipe2 (readChunk s 4) fun bs s' => .ok (.i32 (leNat bs), s')
  | .u64, s =>
    pipe2 (readChunk s 8) fun bs s' => .ok (.u64 (leNat bs), s')
  | .i64, s =>
    pipe2 (readChunk s 8) fun bs s' => .ok (.i64 (leNat bs), s')
  | .f32, s =>
    pipe2 (readChunk s 4) fun bs s' => .ok (.f32 (leNat bs), s')
  | .f64, s =>
    pipe2 (readChunk s 8) fun bs s' => .ok (.f64 (leNat bs), s')
  | .tbool, s =>
    pipe2 (readChunk s 1) fun bs s' => .ok (.vbool (leNat bs != 0), s')
  | .tstr, s =>
    pipe2 (readChunk s 4) fun lenbs s1 =>
      let len := leNat lenbs
      if 0 < len then
        pipe2 (readChunk s1 len) fun bs s2 => .ok (.vstr bs, s2)
      else .ok (.vstr [], s1)
  | .ttime, s =>
    pipe2 (readChunk s 4) fun secbs s1 =>
      pipe2 (readChunk s1 4) fun nsecbs s2 =>
        .ok (.vtime (leNat secbs) (leNat nsecbs), s2)
  | .tduration, s =>
    pipe2 (readChunk s 4) fun secbs s1 =>
      pipe2 (readChunk s1 4) fun nsecbs s2 =>
        .ok (.vduration (leNat secbs) (leNat nsecbs), s2)
  | .vec t, s =>
    pipe2 (readChunk s 4) fun lenbs s1 =>
      let len := leNat lenbs
      if t.isSimple then
        if 0 < len then
          let data_len := t.csize * len % W32
          pipe2 (readChunk s1 data_len) fun bs s2 =>
            .ok (.vvec t (readSimpleElems t len
              (bs ++ List.replicate (len * t.csize - data_len) 0)), s2)
        else .ok (.vvec t [], s1)
      else
        pipe2 (deserializeL t len s1) fun vs s2 => .ok (.vvec t vs, s2)
  | .arr t n, s =>
    if t.isSimple then
      let data_len := n * t.csize % W32
      pipe2 (readChunk s data_len) fun bs s2 =>
        .ok (.varr t (readSimpleElems t n
          (bs ++ List.replicate (n * t.csize - data_len) 0)), s2)
    else
      pipe2 (deserializeL t n s) fun vs s2 => .ok (.varr t vs, s2)

def deserializeL (t : Ty) : Nat → Stream → Except Stream (List Value × Stream)
  | 0, s => .ok ([], s)
  | n + 1, s =>
    pipe2 (deserialize t s) fun v s' =>
      pipe2 (deserializeL t n s') fun vs s2 => .ok (v :: vs, s2)

end

mutual

/-- The length pass, `Serializer<T>::serializedLength` threading the
`LStream` counter `c`.  Primitives advance by `sizeof`; strings by
`4 + (uint32_t)size`; vectors of simple elements by
`4 + size * sizeof(T)` in one step; vectors of fixed-size non-simple
elements advance 4, then measure the front element on a fresh `LStream`
and advance by the 32-bit product of that sub-length and `(uint32_t)size`;
other vectors walk every element; fixed-size non-simple arrays measure the
front element and multiply by the arity (for arity 0 the source calls
`front()` on an empty `boost::array`, which has no defined result; the
product is 0 regardless, which is how it is modelled). -/
def serializedLength : Value → Nat → Nat
  | .u8 _, c => ladv c 1
  | .i8 _, c => ladv c 1
  | .u16 _, c => ladv c 2
  | .i16 _, c => ladv c 2
  | .u32 _, c => ladv c 4
  | .i32 _, c => ladv c 4
  | .u64 _, c => ladv c 8
  | .i64 _, c => ladv c 8
  | .f32 _, c => ladv c 4
  | .f64 _, c => ladv c 8
  | .vbool _, c => ladv c 1
  | .vstr bs, c => ladv c (4 + bs.length % W32)
  | .vtime _ _, c => ladv c 8
  | .vduration _ _, c => ladv c 8
  | .vvec t es, c =>
    if t.isSimple then ladv c (4 + es.length * t.csize)
    else if t.isFixedSize then
      match es with
      | [] => ladv c 4
      | e :: rest =>
        ladv (ladv c 4) (serializedLength e 0 * ((rest.length + 1) % W32) % W32)
    else serializedLengthL es (ladv c 4)
  | .varr t es, c =>
    if t.isSimple then ladv c (es.length * t.csize)
    else if t.isFixedSize then
      match es with
      | [] => ladv c 0
      | e :: rest => ladv c (serializedLength e 0 * (rest.length + 1))
    else serializedLengthL es c

def serializedLengthL : List Value → Nat → Nat
  | [], c => c
  | e :: es, c => serializedLengthL es (serializedLength e c)

end

/-- The free function `serializationLength(t)`: run the length pass on a
fresh `LStream` (counter 0) and return the final counter. -/
def serializationLength (v : Value) : Nat := serializedLength v 0

theorem setBytes_length (bs : List Nat) (buf : List Nat) (i : Nat) :
    (setBytes buf i bs).length = buf.length := by
  induction bs generalizing buf i with
  | nil => rfl
  | cons b rest ih => simp [setBytes, ih, List.length_set]

theorem setBytes_append (a b : List Nat) (buf : List Nat) (i : Nat) :
    setBytes buf i (a ++ b) = setBytes (setBytes buf i a) (i + a.length) b := by
  induction a generalizing buf i with
  | nil => simp [setBytes]
  | cons x rest ih =>
    simp only [List.cons_append, setBytes, List.length_cons, List.append_eq]
    rw [ih]
    congr 1
    omega

theorem setBytes_eq (bs : List Nat) (buf : List Nat) (i : Nat)
    (h : i + bs.length ≤ buf.length) :
    setBytes buf i bs = buf.take i ++ bs ++ buf.drop (i + bs.length) := by
  induction bs generalizing buf i with
  | nil => simp [setBytes]
  | cons b rest ih =>
    have hi : i < buf.length := by simp at h; omega
    rw [setBytes, List.set_eq_take_cons_drop b hi]
    rw [ih _ (i + 1) (by simp [List.length_take]; simp at h; omega)]
    have hlen : (buf.take i).length = i := List.length_take_of_le hi.le
    have hpre : (buf.take i ++ b :: buf.drop (i + 1)).take (i + 1)
        = buf.take i ++ [b] := by
      rw [List.take_append_eq_append_take]
      simp [List.length_take, Nat.min_def, hi.le]
    have hpost : (buf.take i ++ b :: buf.drop (i + 1)).drop (i + 1 + rest.length)
        = buf.drop (i + (b :: rest).length) := by
      rw [List.drop_append_eq_append_drop]
      rw [List.drop_eq_nil_of_le (by omega : (buf.take i).length ≤ i + 1 + rest.length)]
      simp only [hlen, List.nil_append]
      have harith : i + 1 + rest.length - i = rest.length + 1 := by omega
      rw [harith, List.drop_succ_cons, List.drop_drop]
      congr 1
      simp only [List.length_cons]
      omega
    rw [hpre, hpost]
    simp

theorem setBytes_full (bs : List Nat) (buf : List Nat) (h : bs.length = buf.length) :
    setBytes buf 0 bs = bs := by
  rw [setBytes_eq bs buf 0 (by omega)]
  simp [h, List.drop_length]

theorem getBytes_setBytes_self (bs : List Nat) (buf : List Nat) (i : Nat)
    (h : i + bs.length ≤ buf.length) :
    getBytes (setBytes buf i bs) i bs.length = bs := by
  rw [setBytes_eq bs buf i h, getBytes]
  rw [List.drop_append_eq_append_drop]
  have hlen : (buf.take i).length = i := List.length_take_of_le (by omega)
  simp [hlen, List.take_append_eq_append_take]

theorem getBytes_length (buf : List Nat) (i n : Nat) (h : i + n ≤ buf.length) :
    (getBytes buf i n).length = n := by
  simp [getBytes, List.length_take, List.length_drop]
  omega

theorem writeChunk_ok (s : Stream) (n : Nat) (bs : List Nat)
    (h : s.pos + n ≤ s.ends) :
    writeChunk s n bs = .ok ⟨setBytes s.buf s.pos bs, s.pos + n, s.ends⟩ := by
  simp [writeChunk, Stream.advance, Nat.not_lt.mpr h]

theorem writeChunk_err (s : Stream) (n : Nat) (bs : List Nat)
    (h : s.ends < s.pos + n) :
    writeChunk s n bs = .error ⟨s.buf, s.pos + n, s.ends⟩ := by
  simp [writeChunk, Stream.advance, h]

theorem readChunk_ok (s : Stream) (n : Nat) (h : s.pos + n ≤ s.ends) :
    readChunk s n = .ok (getBytes s.buf s.pos n, ⟨s.buf, s.pos + n, s.ends⟩) := by
  simp [readChunk, Stream.advance, Nat.not_lt.mpr h]

theorem readChunk_err (s : Stream) (n : Nat) (h : s.ends < s.pos + n) :
    readChunk s n = .error ⟨s.buf, s.pos + n, s.ends⟩ := by
  simp [readChunk, Stream.advance, h]

theorem Ty.isSimple_isFixedSize {t : Ty} (h : t.isSimple = true) :
    t.isFixedSize = true := by
  cases t <;> simp_all [Ty.isSimple, Ty.isFixedSize]

theorem wtl_forall {t : Ty} {es : List Value} (h : wtl t es = true) :
    ∀ e ∈ es, e.ty = t ∧ wt e = true := by
  induction es with
  | nil => intro e he; cases he
  | cons e rest ih =>
    rw [wtl] at h
    simp only [Bool.and_eq_true, beq_iff_eq] at h
    exact List.forall_mem_cons.mpr ⟨⟨h.1.1, h.1.2⟩, ih h.2⟩

theorem bcntl_forall {es : List Value} (h : bcntl es = true) :
    ∀ e ∈ es, bcnt e = true := by
  induction es with
  | nil => intro e he; cases he
  | cons e rest ih =>
    rw [bcntl] at h
    simp only [Bool.and_eq_true] at h
    exact List.forall_mem_cons.mpr ⟨h.1, ih h.2⟩

mutual

theorem enc_length_fixed : (v : Value) → wt v = true → v.ty.isFixedSize = true →
    (enc v).length = v.ty.wireSize
  | .u8 _, _, _ => by simp [enc, Value.ty, Ty.wireSize, natLE_length]
  | .i8 _, _, _ => by simp [enc, Value.ty, Ty.wireSize, natLE_length]
  | .u16 _, _, _ => by simp [enc, Value.ty, Ty.wireSize, natLE_length]
  | .i16 _, _, _ => by simp [enc, Value.ty, Ty.wireSize, natLE_length]
  | .u32 _, _, _ => by simp [enc, Value.ty, Ty.wireSize, natLE_length]
  | .i32 _, _, _ => by simp [enc, Value.ty, Ty.wireSize, natLE_length]
  | .u64 _, _, _ => by simp [enc, Value.ty, Ty.wireSize, natLE_length]
  | .i64 _, _, _ => by simp [enc, Value.ty, Ty.wireSize, natLE_length]
  | .f32 _, _, _ => by simp [enc, Value.ty, Ty.wireSize, natLE_length]
  | .f64 _, _, _ => by simp [enc, Value.ty, Ty.wireSize, natLE_length]
  | .vbool _, _, _ => by simp [enc, Value.ty, Ty.wireSize]
  | .vstr _, _, h => by simp [Value.ty, Ty.isFixedSize] at h
  | .vtime _ _, _, _ => by simp [enc, Value.ty, Ty.wireSize, natLE_length]
  | .vduration _ _, _, _ => by simp [enc, Value.ty, Ty.wireSize, natLE_length]
  | .vvec _ _, _, h => by simp [Value.ty, Ty.isFixedSize] at h
  | .varr t es, hw, h => by
    simp only [wt] at hw
    simp only [Value.ty, Ty.isFixedSize] at h
    have hl := encL_length_fixed t es hw h
    simp [enc, Value.ty, Ty.wireSize, hl]

theorem encL_length_fixed : (t : Ty) → (es : List Value) → wtl t es = true →
    t.isFixedSize = true → (encL es).length = es.length * t.wireSize
  | _, [], _, _ => by simp [encL]
  | t, e :: es, hw, hf => by
    rw [wtl] at hw
    simp only [Bool.and_eq_true, beq_iff_eq] at hw
    have h1 := enc_length_fixed e hw.1.2 (by rw [hw.1.1]; exact hf)
    have h2 := encL_length_fixed t es hw.2 hf
    simp [encL, h1, h2, hw.1.1, List.length_append]
    ring

end

theorem wbl_forall {es : List Value} (h : wbl es = true) :
    ∀ e ∈ es, wb e = true := by
  induction es with
  | nil => intro e he; cases he
  | cons e rest ih =>
    rw [wbl] at h
    simp only [Bool.and_eq_true] at h
    exact List.forall_mem_cons.mpr ⟨h.1, ih h.2⟩

mutual

theorem serialize_ok : (v : Value) → (s : Stream) → wt v = true → bcnt v = true →
    s.pos + (enc v).length ≤ s.ends → s.ends < W32 →
    serialize v s = .ok ⟨setBytes s.buf s.pos (enc v), s.pos + (enc v).length, s.ends⟩
  | .u8 x, s, _, _, hroom, _ => by
    simp only [enc, natLE_length] at hroom ⊢
    simp only [serialize]
    exact writeChunk_ok s 1 (natLE 1 x) hroom
  | .i8 x, s, _, _, hroom, _ => by
    simp only [enc, natLE_length] at hroom ⊢
    simp only [serialize]
    exact writeChunk_ok s 1 (natLE 1 x) hroom
  | .u16 x, s, _, _, hroom, _ => by
    simp only [enc, natLE_length] at hroom ⊢
    simp only [serialize]
    exact writeChunk_ok s 2 (natLE 2 x) hroom
  | .i16 x, s, _, _, hroom, _ => by
    simp only [enc, natLE_length] at hroom ⊢
    simp only [serialize]
    exact writeChunk_ok s 2 (natLE 2 x) hroom
  | .u32 x, s, _, _, hroom, _ => by
    simp only [enc, natLE_length] at hroom ⊢
    simp only [serialize]
    exact writeChunk_ok s 4 (natLE 4 x) hroom
  | .i32 x, s, _, _, hroom, _ => by
    simp only [enc, natLE_length] at hroom ⊢
    simp only [serialize]
    exact writeChunk_ok s 4 (natLE 4 x) hroom
  | .u64 x, s, _, _, hroom, _ => by
    simp only [enc, natLE_length] at hroom ⊢
    simp only [serialize]
    exact writeChunk_ok s 8 (natLE 8 x) hroom
  | .i64 x, s, _, _, hroom, _ => by
    simp only [enc, natLE_length] at hroom ⊢
    simp only [serialize]
    exact writeChunk_ok s 8 (natLE 8 x) hroom
  | .f32 x, s, _, _, hroom, _ => by
    simp only [enc, natLE_length] at hroom ⊢
    simp only [serialize]
    exact writeChunk_ok s 4 (natLE 4 x) hroom
  | .f64 x, s, _, _, hroom, _ => by
    simp only [enc, natLE_length] at hroom ⊢
    simp only [serialize]
    exact writeChunk_ok s 8 (natLE 8 x) hroom
  | .vbool b, s, _, _, hroom, _ => by
    simp only [enc, List.length_singleton] at hroom ⊢
    simp only [serialize]
    exact writeChunk_ok s 1 [if b then 1 else 0] hroom
  | .vstr bs, s, _, hb, hroom, _ => by
    simp only [bcnt, decide_eq_true_eq] at hb
    have hlen : (enc (.vstr bs)).length = 4 + bs.length := by
      simp [enc, natLE_length]
    rw [hlen] at hroom ⊢
    have hmod : bs.length % W32 = bs.length := Nat.mod_eq_of_lt hb
    simp only [serialize, enc]
    rw [writeChunk_ok s 4 (natLE 4 bs.length) (by omega)]
    simp only [pipe_ok]
    by_cases hpos : 0 < bs.length
    · simp only [hpos, if_true, hmod]
      rw [writeChunk_ok ⟨setBytes s.buf s.pos (natLE 4 bs.length), s.pos + 4, s.ends⟩
        bs.length bs (show s.pos + 4 + bs.length ≤ s.ends by omega)]
      rw [setBytes_append]
      simp only [natLE_length, Except.ok.injEq, Stream.mk.injEq, true_and, and_true]
      omega
    · have hnil : bs = [] := List.length_eq_zero.mp (by omega)
      subst hnil
      simp [setBytes]
  | .vtime sec nsec, s, _, _, hroom, _ => by
    have hlen : (enc (.vtime sec nsec)).length = 8 := by simp [enc, natLE_length]
    rw [hlen] at hroom ⊢
    simp only [serialize, enc]
    rw [writeChunk_ok s 4 (natLE 4 sec) (by omega)]
    simp only [pipe_ok]
    rw [writeChunk_ok ⟨setBytes s.buf s.pos (natLE 4 sec), s.pos + 4, s.ends⟩ 4
      (natLE 4 nsec) (show s.pos + 4 + 4 ≤ s.ends by omega)]
    rw [setBytes_append]
    simp only [natLE_length, Except.ok.injEq, Stream.mk.injEq, true_and, and_true]
  | .vduration sec nsec, s, _, _, hroom, _ => by
    have hlen : (enc (.vduration sec nsec)).length = 8 := by simp [enc, natLE_length]
    rw [hlen] at hroom ⊢
    simp only [serialize, enc]
    rw [writeChunk_ok s 4 (natLE 4 sec) (by omega)]
    simp only [pipe_ok]
    rw [writeChunk_ok ⟨setBytes s.buf s.pos (natLE 4 sec), s.pos + 4, s.ends⟩ 4
      (natLE 4 nsec) (show s.pos + 4 + 4 ≤ s.ends by omega)]
    rw [setBytes_append]
    simp only [natLE_length, Except.ok.injEq, Stream.mk.injEq, true_and, and_true]
  | .vvec t es, s, hw, hb, hroom, hend => by
    simp only [wt] at hw
    simp only [bcnt, Bool.and_eq_true, decide_eq_true_eq] at hb
    have hlen4 : (enc (.vvec t es)).length = 4 + (encL es).length := by
      simp [enc, natLE_length]
    rw [hlen4] at hroom ⊢
    simp only [serialize, enc]
    by_cases hs : t.isSimple = true
    · have hf := Ty.isSimple_isFixedSize hs
      have hencl : (encL es).length = es.length * t.csize := by
        rw [encL_length_fixed t es hw hf, Ty.csize_eq_wireSize hs]
      rw [if_pos hs]
      rw [writeChunk_ok s 4 (natLE 4 es.length) (by omega)]
      simp only [pipe_ok]
      cases es with
      | nil => simp [encL, setBytes]
      | cons e rest =>
        have hemp : ((e :: rest).isEmpty = true) = False := by simp
        simp only [hemp, if_false]
        have hml : (e :: rest).length % W32 = (e :: rest).length :=
          Nat.mod_eq_of_lt hb.1
        have hdl : (e :: rest).length * t.csize % W32 = (e :: rest).length * t.csize :=
          Nat.mod_eq_of_lt (by omega)
        rw [hml, hdl, ← hencl, List.take_length]
        rw [writeChunk_ok ⟨setBytes s.buf s.pos (natLE 4 (e :: rest).length),
          s.pos + 4, s.ends⟩ (encL (e :: rest)).length (encL (e :: rest))
          (show s.pos + 4 + (encL (e :: rest)).length ≤ s.ends by omega)]
        rw [setBytes_append]
        simp only [natLE_length, Except.ok.injEq, Stream.mk.injEq, true_and, and_true]
        omega
    · rw [if_neg hs]
      rw [writeChunk_ok s 4 (natLE 4 es.length) (by omega)]
      simp only [pipe_ok]
      rw [serializeL_ok es ⟨setBytes s.buf s.pos (natLE 4 es.length), s.pos + 4, s.ends⟩
        (fun e he => ⟨(wtl_forall hw e he).2, bcntl_forall hb.2 e he⟩)
        (show s.pos + 4 + (encL es).length ≤ s.ends by omega) hend]
      rw [setBytes_append]
      simp only [natLE_length, Except.ok.injEq, Stream.mk.injEq, true_and, and_true]
      omega
  | .varr t es, s, hw, hb, hroom, hend => by
    simp only [wt] at hw
    simp only [bcnt] at hb
    simp only [serialize, enc] at hroom ⊢
    by_cases hs : t.isSimple = true
    · have hf := Ty.isSimple_isFixedSize hs
      have hencl : (encL es).length = es.length * t.csize := by
        rw [encL_length_fixed t es hw hf, Ty.csize_eq_wireSize hs]
      rw [if_pos hs]
      have hdl : es.length * t.csize % W32 = es.length * t.csize :=
        Nat.mod_eq_of_lt (by omega)
      rw [hdl, ← hencl, List.take_length]
      exact writeChunk_ok s (encL es).length (encL es) hroom
    · rw [if_neg hs]
      exact serializeL_ok es s
        (fun e he => ⟨(wtl_forall hw e he).2, bcntl_forall hb e he⟩) hroom hend

theorem serializeL_ok : (es : List Value) → (s : Stream) →
    (∀ e ∈ es, wt e = true ∧ bcnt e = true) →
    s.pos + (encL es).length ≤ s.ends → s.ends < W32 →
    serializeL es s = .ok ⟨setBytes s.buf s.pos (encL es), s.pos + (encL es).length, s.ends⟩
  | [], s, _, _, _ => by simp [serializeL, encL, setBytes]
  | e :: es, s, hall, hroom, hend => by
    have hlen : (encL (e :: es)).length = (enc e).length + (encL es).length := by
      simp [encL]
    rw [hlen] at hroom ⊢
    simp only [serializeL, encL]
    rw [serialize_ok e s (hall e (by simp)).1 (hall e (by simp)).2 (by omega) hend]
    simp only [pipe_ok]
    rw [serializeL_ok es ⟨setBytes s.buf s.pos (enc e), s.pos + (enc e).length, s.ends⟩
      (fun x hx => hall x (by simp [hx]))
      (show s.pos + (enc e).length + (encL es).length ≤ s.ends by omega) hend]
    rw [setBytes_append]
    simp only [Except.ok.injEq, Stream.mk.injEq, true_and, and_true]
    omega

end

theorem ladv_eq (c x : Nat) : ladv c x = (c + x) % W32 := by
  simp only [ladv, W32]
  omega

theorem mod_add_left (a b : Nat) : (a % W32 + b) % W32 = (a + b) % W32 := by
  simp only [W32]
  omega

theorem mod_add_right (a b : Nat) : (a + b % W32) % W32 = (a + b) % W32 := by
  simp only [W32]
  omega

mutual

theorem serializedLength_ok : (v : Value) → (c : Nat) → wt v = true → c < W32 →
    serializedLength v c = (c + (enc v).length) % W32
  | .u8 _, c, _, _ => by simp [serializedLength, ladv_eq, enc, natLE_length]
  | .i8 _, c, _, _ => by simp [serializedLength, ladv_eq, enc, natLE_length]
  | .u16 _, c, _, _ => by simp [serializedLength, ladv_eq, enc, natLE_length]
  | .i16 _, c, _, _ => by simp [serializedLength, ladv_eq, enc, natLE_length]
  | .u32 _, c, _, _ => by simp [serializedLength, ladv_eq, enc, natLE_length]
  | .i32 _, c, _, _ => by simp [serializedLength, ladv_eq, enc, natLE_length]
  | .u64 _, c, _, _ => by simp [serializedLength, ladv_eq, enc, natLE_length]
  | .i64 _, c, _, _ => by simp [serializedLength, ladv_eq, enc, natLE_length]
  | .f32 _, c, _, _ => by simp [serializedLength, ladv_eq, enc, natLE_length]
  | .f64 _, c, _, _ => by simp [serializedLength, ladv_eq, enc, natLE_length]
  | .vbool _, c, _, _ => by simp [serializedLength, ladv_eq, enc]
  | .vstr bs, c, _, _ => by
    simp only [serializedLength, ladv_eq, enc, List.length_append, natLE_length]
    simp only [W32]
    omega
  | .vtime _ _, c, _, _ => by
    simp [serializedLength, ladv_eq, enc, natLE_length]
  | .vduration _ _, c, _, _ => by
    simp [serializedLength, ladv_eq, enc, natLE_length]
  | .vvec t es, c, hw, hc => by
    simp only [wt] at hw
    have hencv : (enc (.vvec t es)).length = 4 + (encL es).length := by
      simp [enc, natLE_length]
    rw [hencv]
    unfold serializedLength
    by_cases hs : t.isSimple = true
    · have hf := Ty.isSimple_isFixedSize hs
      have hencl : (encL es).length = es.length * t.csize := by
        rw [encL_length_fixed t es hw hf, Ty.csize_eq_wireSize hs]
      rw [if_pos hs, ladv_eq, hencl]
    · rw [if_neg hs]
      by_cases hfx : t.isFixedSize = true
      · rw [if_pos hfx]
        cases es with
        | nil => simp [ladv_eq, encL]
        | cons e rest =>
          have hwe := wtl_forall hw e (by simp)
          have hS : serializedLength e 0 = (enc e).length % W32 := by
            have h0 := serializedLength_ok e 0 hwe.2 (by simp [W32])
            simpa using h0
          have hew : (enc e).length = t.wireSize := by
            have h1 := enc_length_fixed e hwe.2 (by rw [hwe.1]; exact hfx)
            rw [hwe.1] at h1
            exact h1
          have hel : (encL (e :: rest)).length = (rest.length + 1) * t.wireSize := by
            have h2 := encL_length_fixed t (e :: rest) hw hfx
            simpa using h2
          simp only []
          rw [hS, hew, ← Nat.mul_mod, hel]
          simp only [ladv_eq]
          rw [mod_add_right, mod_add_left]
          congr 1
          ring
      · rw [if_neg hfx]
        rw [serializedLengthL_ok es (ladv c 4) (fun e he => (wtl_forall hw e he).2)
          (by rw [ladv_eq]; exact Nat.mod_lt _ W32_pos)]
        rw [ladv_eq, mod_add_left]
        congr 1
        omega
  | .varr t es, c, hw, hc => by
    simp only [wt] at hw
    have hencv : enc (.varr t es) = encL es := by simp [enc]
    rw [hencv]
    unfold serializedLength
    by_cases hs : t.isSimple = true
    · have hf := Ty.isSimple_isFixedSize hs
      have hencl : (encL es).length = es.length * t.csize := by
        rw [encL_length_fixed t es hw hf, Ty.csize_eq_wireSize hs]
      rw [if_pos hs, ladv_eq, hencl]
    · rw [if_neg hs]
      by_cases hfx : t.isFixedSize = true
      · rw [if_pos hfx]
        cases es with
        | nil => simp [ladv_eq, encL, Nat.mod_eq_of_lt hc]
        | cons e rest =>
          have hwe := wtl_forall hw e (by simp)
          have hS : serializedLength e 0 = (enc e).length % W32 := by
            have h0 := serializedLength_ok e 0 hwe.2 (by simp [W32])
            simpa using h0
          have hew : (enc e).length = t.wireSize := by
            have h1 := enc_length_fixed e hwe.2 (by rw [hwe.1]; exact hfx)
            rw [hwe.1] at h1
            exact h1
          have hel : (encL (e :: rest)).length = (rest.length + 1) * t.wireSize := by
            have h2 := encL_length_fixed t (e :: rest) hw hfx
            simpa using h2
          simp only []
          rw [hS, ladv_eq, hel, hew]
          have h3 : (c + t.wireSize % W32 * (rest.length + 1)) % W32
              = (c + t.wireSize * (rest.length + 1)) % W32 :=
            Nat.ModEq.add_left c ((Nat.mod_modEq _ W32).mul_right _)
          rw [h3]
          congr 1
          ring
      · rw [if_neg hfx]
        exact serializedLengthL_ok es c (fun e he => (wtl_forall hw e he).2) hc

theorem serializedLengthL_ok : (es : List Value) → (c : Nat) →
    (∀ e ∈ es, wt e = true) → c < W32 →
    serializedLengthL es c = (c + (encL es).length) % W32
  | [], c, _, hc => by simp [serializedLengthL, encL, Nat.mod_eq_of_lt hc]
  | e :: es, c, hall, hc => by
    simp only [serializedLengthL]
    rw [serializedLength_ok e c (hall e (by simp)) hc]
    rw [serializedLengthL_ok es ((c + (enc e).length) % W32)
      (fun x hx => hall x (by simp [hx])) (Nat.mod_lt _ W32_pos)]
    rw [mod_add_left]
    simp only [encL, List.length_append]
    congr 1
    omega

end

theorem getBytes_split (buf : List Nat) (p : Nat) (A B : List Nat)
    (h : getBytes buf p (A.length + B.length) = A ++ B) :
    getBytes buf p A.length = A ∧ getBytes buf (p + A.length) B.length = B := by
  constructor
  · have := congrArg (List.take A.length) h
    rwa [getBytes, List.take_take, Nat.min_def, if_pos (by omega),
      List.take_left, ← getBytes] at this
  · have := congrArg (List.drop A.length) h
    rw [getBytes, List.drop_take, List.drop_drop, List.drop_left] at this
    rw [show A.length + B.length - A.length = B.length from by omega] at this
    rw [getBytes]
    exact this

theorem enc_length_simple {t : Ty} {e : Value} (hs : t.isSimple = true)
    (hty : e.ty = t) : (enc e).length = t.csize := by
  subst hty
  cases e <;> simp_all [enc, Value.ty, Ty.isSimple, Ty.csize, natLE_length]

theorem decodeSimpleElem_enc {t : Ty} {e : Value} (hs : t.isSimple = true)
    (hty : e.ty = t) (hb : wb e = true) : decodeSimpleElem t (enc e) = e := by
  subst hty
  cases e <;>
    simp_all [decodeSimpleElem, enc, Value.ty, Ty.isSimple, wb, leNat_natLE]

theorem readSimpleElems_encL {t : Ty} (hs : t.isSimple = true) :
    (es : List Value) → (∀ e ∈ es, e.ty = t ∧ wb e = true) →
    readSimpleElems t es.length (encL es) = es
  | [], _ => by simp [readSimpleElems]
  | e :: es, hall => by
    have he := hall e (by simp)
    have hlen : (enc e).length = t.csize := enc_length_simple hs he.1
    simp only [List.length_cons, readSimpleElems, encL]
    rw [← hlen, List.take_left, List.drop_left]
    rw [decodeSimpleElem_enc hs he.1 he.2]
    rw [readSimpleElems_encL hs es (fun x hx => hall x (by simp [hx]))]

theorem leNat_natLE_w (w x : Nat) (h : x < 2 ^ (8 * w)) : leNat (natLE w x) = x := by
  rw [leNat_natLE, Nat.mod_eq_of_lt h]

mutual

theorem deserialize_ok : (v : Value) → (s : Stream) → wt v = true → wb v = true →
    bcnt v = true → getBytes s.buf s.pos (enc v).length = enc v →
    s.pos + (enc v).length ≤ s.ends → s.ends < W32 →
    deserialize v.ty s = .ok (v, ⟨s.buf, s.pos + (enc v).length, s.ends⟩)
  | .u8 x, s, _, hb, _, hbytes, hroom, _ => by
    simp only [wb, decide_eq_true_eq] at hb
    simp only [enc, natLE_length] at hbytes hroom ⊢
    simp only [Value.ty]
    unfold deserialize
    rw [readChunk_ok s 1 (by omega)]
    simp only [pipe2_ok]
    rw [hbytes, leNat_natLE_w 1 x (by simpa using hb)]
  | .i8 x, s, _, hb, _, hbytes, hroom, _ => by
    simp only [wb, decide_eq_true_eq] at hb
    simp only [enc, natLE_length] at hbytes hroom ⊢
    simp only [Value.ty]
    unfold deserialize
    rw [readChunk_ok s 1 (by omega)]
    simp only [pipe2_ok]
    rw [hbytes, leNat_natLE_w 1 x (by simpa using hb)]
  | .u16 x, s, _, hb, _, hbytes, hroom, _ => by
    simp only [wb, decide_eq_true_eq] at hb
    simp only [enc, natLE_length] at hbytes hroom ⊢
    simp only [Value.ty]
    unfold deserialize
    rw [readChunk_ok s 2 (by omega)]
    simp only [pipe2_ok]
    rw [hbytes, leNat_natLE_w 2 x (by simpa using hb)]
  | .i16 x, s, _, hb, _, hbytes, hroom, _ => by
    simp only [wb, decide_eq_true_eq] at hb
    simp only [enc, natLE_length] at hbytes hroom ⊢
    simp only [Value.ty]
    unfold deserialize
    rw [readChunk_ok s 2 (by omega)]
    simp only [pipe2_ok]
    rw [hbytes, leNat_natLE_w 2 x (by simpa using hb)]
  | .u32 x, s, _, hb, _, hbytes, hroom, _ => by
    simp only [wb, decide_eq_true_eq] at hb
    simp only [enc, natLE_length] at hbytes hroom ⊢
    simp only [Value.ty]
    unfold deserialize
    rw [readChunk_ok s 4 (by omega)]
    simp only [pipe2_ok]
    rw [hbytes, leNat_natLE_w 4 x (by simpa using hb)]
  | .i32 x, s, _, hb, _, hbytes, hroom, _ => by
    simp only [wb, decide_eq_true_eq] at hb
    simp only [enc, natLE_length] at hbytes hroom ⊢
    simp only [Value.ty]
    unfold deserialize
    rw [readChunk_ok s 4 (by omega)]
    simp only [pipe2_ok]
    rw [hbytes, leNat_natLE_w 4 x (by simpa using hb)]
  | .u64 x, s, _, hb, _, hbytes, hroom, _ => by
    simp only [wb, decide_eq_true_eq] at hb
    simp only [enc, natLE_length] at hbytes hroom ⊢
    simp only [Value.ty]
    unfold deserialize
    rw [readChunk_ok s 8 (by omega)]
    simp only [pipe2_ok]
    rw [hbytes, leNat_natLE_w 8 x (by simpa using hb)]
  | .i64 x, s, _, hb, _, hbytes, hroom, _ => by
    simp only [wb, decide_eq_true_eq] at hb
    simp only [enc, natLE_length] at hbytes hroom ⊢
    simp only [Value.ty]
    unfold deserialize
    rw [readChunk_ok s 8 (by omega)]
    simp only [pipe2_ok]
    rw [hbytes, leNat_natLE_w 8 x (by simpa using hb)]
  | .f32 x, s, _, hb, _, hbytes, hroom, _ => by
    simp only [wb, decide_eq_true_eq] at hb
    simp only [enc, natLE_length] at hbytes hroom ⊢
    simp only [Value.ty]
    unfold deserialize
    rw [readChunk_ok s 4 (by omega)]
    simp only [pipe2_ok]
    rw [hbytes, leNat_natLE_w 4 x (by simpa using hb)]
  | .f64 x, s, _, hb, _, hbytes, hroom, _ => by
    simp only [wb, decide_eq_true_eq] at hb
    simp only [enc, natLE_length] at hbytes hroom ⊢
    simp only [Value.ty]
    unfold deserialize
    rw [readChunk_ok s 8 (by omega)]
    simp only [pipe2_ok]
    rw [hbytes, leNat_natLE_w 8 x (by simpa using hb)]
  | .vbool b, s, _, _, _, hbytes, hroom, _ => by
    simp only [enc, List.length_singleton] at hbytes hroom ⊢
    simp only [Value.ty]
    unfold deserialize
    rw [readChunk_ok s 1 (by omega)]
    simp only [pipe2_ok]
    rw [hbytes]
    cases b <;> simp [leNat]
  | .vstr bs, s, _, _, hcnt, hbytes, hroom, hend => by
    simp only [bcnt, decide_eq_true_eq] at hcnt
    have hencl : (enc (.vstr bs)).length = 4 + bs.length := by
      simp [enc, natLE_length]
    rw [hencl] at hroom ⊢
    have hsplit := getBytes_split s.buf s.pos (natLE 4 bs.length) bs
      (by simpa [enc, natLE_length] using hbytes)
    simp only [natLE_length] at hsplit
    simp only [Value.ty]
    unfold deserialize
    rw [readChunk_ok s 4 (by omega)]
    simp only [pipe2_ok]
    rw [hsplit.1, leNat_natLE_four, Nat.mod_eq_of_lt hcnt]
    by_cases hpos : 0 < bs.length
    · rw [if_pos hpos]
      rw [readChunk_ok ⟨s.buf, s.pos + 4, s.ends⟩ bs.length
        (show s.pos + 4 + bs.length ≤ s.ends by omega)]
      simp only [pipe2_ok]
      rw [hsplit.2]
      simp only [Except.ok.injEq, Prod.mk.injEq, Stream.mk.injEq, true_and, and_true]
      omega
    · have hnil : bs = [] := List.length_eq_zero.mp (by omega)
      subst hnil
      rw [if_neg hpos]
      simp
  | .vtime sec nsec, s, _, hb, _, hbytes, hroom, _ => by
    simp only [wb, Bool.and_eq_true, decide_eq_true_eq] at hb
    have hencl : (enc (.vtime sec nsec)).length = 8 := by simp [enc, natLE_length]
    rw [hencl] at hroom ⊢
    have hsplit := getBytes_split s.buf s.pos (natLE 4 sec) (natLE 4 nsec)
      (by simpa [enc, natLE_length] using hbytes)
    simp only [natLE_length] at hsplit
    simp only [Value.ty]
    unfold deserialize
    rw [readChunk_ok s 4 (by omega)]
    simp only [pipe2_ok]
    rw [readChunk_ok ⟨s.buf, s.pos + 4, s.ends⟩ 4
      (show s.pos + 4 + 4 ≤ s.ends by omega)]
    simp only [pipe2_ok]
    rw [hsplit.1, hsplit.2, leNat_natLE_four, leNat_natLE_four,
      Nat.mod_eq_of_lt (show sec < W32 by rw [W32_eq]; exact hb.1),
      Nat.mod_eq_of_lt (show nsec < W32 by rw [W32_eq]; exact hb.2)]
  | .vduration sec nsec, s, _, hb, _, hbytes, hroom, _ => by
    simp only [wb, Bool.and_eq_true, decide_eq_true_eq] at hb
    have hencl : (enc (.vduration sec nsec)).length = 8 := by
      simp [enc, natLE_length]
    rw [hencl] at hroom ⊢
    have hsplit := getBytes_split s.buf s.pos (natLE 4 sec) (natLE 4 nsec)
      (by simpa [enc, natLE_length] using hbytes)
    simp only [natLE_length] at hsplit
    simp only [Value.ty]
    unfold deserialize
    rw [readChunk_ok s 4 (by omega)]
    simp only [pipe2_ok]
    rw [readChunk_ok ⟨s.buf, s.pos + 4, s.ends⟩ 4
      (show s.pos + 4 + 4 ≤ s.ends by omega)]
    simp only [pipe2_ok]
    rw [hsplit.1, hsplit.2, leNat_natLE_four, leNat_natLE_four,
      Nat.mod_eq_of_lt (show sec < W32 by rw [W32_eq]; exact hb.1),
      Nat.mod_eq_of_lt (show nsec < W32 by rw [W32_eq]; exact hb.2)]
  | .vvec t es, s, hw, hb, hcnt, hbytes, hroom, hend => by
    simp only [wt] at hw
    simp only [wb] at hb
    simp only [bcnt, Bool.and_eq_true, decide_eq_true_eq] at hcnt
    have hencl4 : (enc (.vvec t es)).length = 4 + (encL es).length := by
      simp [enc, natLE_length]
    rw [hencl4] at hroom ⊢
    have hsplit := getBytes_split s.buf s.pos (natLE 4 es.length) (encL es)
      (by simpa [enc, natLE_length] using hbytes)
    simp only [natLE_length] at hsplit
    simp only [Value.ty]
    unfold deserialize
    rw [readChunk_ok s 4 (by omega)]
    simp only [pipe2_ok]
    rw [hsplit.1, leNat_natLE_four, Nat.mod_eq_of_lt hcnt.1]
    by_cases hs : t.isSimple = true
    · rw [if_pos hs]
      have hf := Ty.isSimple_isFixedSize hs
      have hencl : (encL es).length = es.length * t.csize := by
        rw [encL_length_fixed t es hw hf, Ty.csize_eq_wireSize hs]
      cases es with
      | nil =>
        rw [if_neg (by simp)]
        simp [encL]
      | cons e rest =>
        rw [if_pos (by simp)]
        have hmul : t.csize * (e :: rest).length = (encL (e :: rest)).length := by
          rw [hencl, Nat.mul_comm]
        have hdl : t.csize * (e :: rest).length % W32 = t.csize * (e :: rest).length :=
          Nat.mod_eq_of_lt (by omega)
        rw [hdl, hmul]
        rw [readChunk_ok ⟨s.buf, s.pos + 4, s.ends⟩ (encL (e :: rest)).length
          (show s.pos + 4 + (encL (e :: rest)).length ≤ s.ends by omega)]
        simp only [pipe2_ok]
        rw [hsplit.2]
        rw [show (e :: rest).length * t.csize - (encL (e :: rest)).length = 0 from by
          omega]
        simp only [List.replicate_zero, List.append_nil]
        rw [readSimpleElems_encL hs (e :: rest)
          (fun x hx => ⟨(wtl_forall hw x hx).1, wbl_forall hb x hx⟩)]
        simp only [Except.ok.injEq, Prod.mk.injEq, Stream.mk.injEq, true_and, and_true]
        omega
    · rw [if_neg hs]
      rw [deserializeL_ok t es ⟨s.buf, s.pos + 4, s.ends⟩
        (fun x hx => ⟨(wtl_forall hw x hx).1, (wtl_forall hw x hx).2,
          wbl_forall hb x hx, bcntl_forall hcnt.2 x hx⟩)
        hsplit.2
        (show s.pos + 4 + (encL es).length ≤ s.ends by omega) hend]
      simp only [pipe2_ok]
      simp only [Except.ok.injEq, Prod.mk.injEq, Stream.mk.injEq, true_and, and_true]
      omega
  | .varr t es, s, hw, hb, hcnt, hbytes, hroom, hend => by
    simp only [wt] at hw
    simp only [wb] at hb
    simp only [bcnt] at hcnt
    have hencv : enc (.varr t es) = encL es := by simp [enc]
    rw [hencv] at hbytes hroom ⊢
    simp only [Value.ty]
    unfold deserialize
    by_cases hs : t.isSimple = true
    · rw [if_pos hs]
      have hf := Ty.isSimple_isFixedSize hs
      have hencl : (encL es).length = es.length * t.csize := by
        rw [encL_length_fixed t es hw hf, Ty.csize_eq_wireSize hs]
      have hdl : es.length * t.csize % W32 = es.length * t.csize :=
        Nat.mod_eq_of_lt (by omega)
      rw [hdl, ← hencl]
      dsimp only
      rw [readChunk_ok s (encL es).length (by omega)]
      simp only [pipe2_ok]
      rw [hbytes, Nat.sub_self]
      simp only [List.replicate_zero, List.append_nil]
      rw [readSimpleElems_encL hs es
        (fun x hx => ⟨(wtl_forall hw x hx).1, wbl_forall hb x hx⟩)]
    · rw [if_neg hs]
      rw [deserializeL_ok t es s
        (fun x hx => ⟨(wtl_forall hw x hx).1, (wtl_forall hw x hx).2,
          wbl_forall hb x hx, bcntl_forall hcnt x hx⟩) hbytes hroom hend]
      simp only [pipe2_ok]

theorem deserializeL_ok : (t : Ty) → (es : List Value) → (s : Stream) →
    (∀ e ∈ es, e.ty = t ∧ wt e = true ∧ wb e = true ∧ bcnt e = true) →
    getBytes s.buf s.pos (encL es).length = encL es →
    s.pos + (encL es).length ≤ s.ends → s.ends < W32 →
    deserializeL t es.length s = .ok (es, ⟨s.buf, s.pos + (encL es).length, s.ends⟩)
  | _, [], s, _, _, _, _ => by simp [deserializeL, encL]
  | t, e :: es, s, hall, hbytes, hroom, hend => by
    have he := hall e (by simp)
    have hsplit := getBytes_split s.buf s.pos (enc e) (encL es)
      (by simpa [encL] using hbytes)
    have hencl : (encL (e :: es)).length = (enc e).length + (encL es).length := by
      simp [encL]
    rw [hencl] at hroom ⊢
    simp only [List.length_cons]
    unfold deserializeL
    have hd := deserialize_ok e s he.2.1 he.2.2.1 he.2.2.2 hsplit.1 (by omega) hend
    rw [he.1] at hd
    rw [hd]
    simp only [pipe2_ok]
    rw [deserializeL_ok t es ⟨s.buf, s.pos + (enc e).length, s.ends⟩
      (fun x hx => hall x (by simp [hx])) hsplit.2
      (show s.pos + (enc e).length + (encL es).length ≤ s.ends by omega) hend]
    simp only [pipe2_ok]
    simp only [Except.ok.injEq, Prod.mk.injEq, Stream.mk.injEq, true_and, and_true]
    omega

end

/-- Modelled from the spec: the `SerializedMessage` record produced by the
framing layer (`serialized_message.h` is not part of this unit) — an owned
buffer, its total byte count, and an optional payload-start marker that the
default-constructed record leaves unset. -/
structure SerializedMessage where
  buf : List Nat
  num_bytes : Nat
  message_start : Option Nat
deriving Repr, DecidableEq

/-- Exception escape for the framing layer: a `StreamOverrunException`
escaping `serializeMessage` / `serializeServiceResponse` means no
`SerializedMessage` is returned. -/
def tryFrame (x : Except Stream Stream) (f : Stream → Option SerializedMessage) :
    Option SerializedMessage :=
  match x with
  | .error _ => none
  | .ok s => f s

@[simp] theorem tryFrame_ok (s : Stream) (f : Stream → Option SerializedMessage) :
    tryFrame (.ok s) f = f s := rfl

@[simp] theorem tryFrame_error (e : Stream) (f : Stream → Option SerializedMessage) :
    tryFrame (.error e) f = none := rfl

/-- serializeMessage: run the length pass on a fresh `LStream`, set
`num_bytes` to that length plus 4 (32-bit sum), allocate a buffer of
`num_bytes` bytes (its fresh contents modelled as zeros), serialize the
32-bit value `num_bytes - 4` (the payload length) at the front, record the
write cursor as `message_start`, then serialize the message itself. -/
def serializeMessage (v : Value) : Option SerializedMessage :=
  let lstream_len := serializationLength v
  let num_bytes := (lstream_len + 4) % W32
  let s0 := Stream.mkOver (List.replicate num_bytes 0) num_bytes
  tryFrame (serialize (.u32 ((num_bytes + W32 - 4) % W32)) s0) fun s1 =>
    let message_start := s1.pos
    tryFrame (serialize v s1) fun s2 =>
      some ⟨s2.buf, num_bytes, some message_start⟩

/-- serializeServiceResponse: on success, a status byte `(uint8_t)ok`, the
32-bit payload length `num_bytes - 5`, then the payload, in a buffer of
(payload length + 5) bytes; on failure, a 5-byte buffer holding the zero
status byte and a 4-byte zero length, the message never serialized.  The
payload-start marker is never assigned on either path. -/
def serializeServiceResponse (ok : Bool) (v : Value) : Option SerializedMessage :=
  if ok then
    let lstream_len := serializationLength v
    let num_bytes := (lstream_len + 5) % W32
    let s0 := Stream.mkOver (List.replicate num_bytes 0) num_bytes
    tryFrame (serialize (.u8 (if ok then 1 else 0)) s0) fun s1 =>
      tryFrame (serialize (.u32 ((num_bytes + W32 - 5) % W32)) s1) fun s2 =>
        tryFrame (serialize v s2) fun s3 =>
          some ⟨s3.buf, num_bytes, none⟩
  else
    let num_bytes := 5
    let s0 := Stream.mkOver (List.replicate 5 0) num_bytes
    tryFrame (serialize (.u8 (if ok then 1 else 0)) s0) fun s1 =>
      tryFrame (serialize (.u32 0) s1) fun s2 =>
        some ⟨s2.buf, num_bytes, none⟩

/-- Abstract user aggregate handled by the default (unspecialized)
`Serializer<T>`: an opaque byte payload, the self-reported
`serializationLength()`, and the `__serialized_length` field the default
read path assigns. -/
structure UserMsg where
  payload : List Nat
  selfLen : Nat
  serialized_length : Nat
deriving Repr, DecidableEq

/-- Default `Serializer<T>::write`: `t.serialize(stream.getData(), 0)` — the
value writes its own bytes (an arbitrary function `serFn` of the value) at
the stream's current data pointer; the stream object itself is not touched
and no `advance` (hence no bounds check) happens, so the function is total
on the stream. -/
def defaultWrite (serFn : UserMsg → List Nat) (t : UserMsg) (s : Stream) : Stream :=
  { s with buf := setBytes s.buf s.pos (serFn t) }

/-- Default `Serializer<T>::read`: `t.__serialized_length = stream.getLength();
t.deserialize(stream.getData())` — the value's own deserializer (an
arbitrary function `deserFn` of the visible bytes) rebuilds the value from
the current data pointer; the stream object is returned untouched, with no
`advance` and no bounds check. -/
def defaultRead (deserFn : List Nat → UserMsg → UserMsg) (t : UserMsg) (s : Stream) :
    UserMsg × Stream :=
  (deserFn (s.buf.drop s.pos) { t with serialized_length := s.getLength }, s)

/-- Default `Serializer<T>::serializedLength`:
`stream.advance(t.serializationLength())` against the length stream. -/
def defaultSerializedLength (t : UserMsg) (c : Nat) : Nat := ladv c t.selfLen

/-- Cursor-bound outcome of a write step starting from `s`: on success the
end bound is unchanged, the cursor only moves forward, and a cursor within
bounds stays within bounds; on a raised overrun the end bound is unchanged
and the cursor is strictly past it (the state the throwing `advance`
leaves behind). -/
def boundsOk (s : Stream) : Except Stream Stream → Prop
  | .ok s' => s'.ends = s.ends ∧ (s.pos ≤ s.ends → s'.pos ≤ s.ends) ∧ s.pos ≤ s'.pos
  | .error e => e.ends = s.ends ∧ e.ends < e.pos ∧ s.pos ≤ e.pos

theorem boundsOk_refl (s : Stream) : boundsOk s (.ok s) :=
  ⟨rfl, fun h => h, Nat.le_refl _⟩

theorem boundsOk_writeChunk (s : Stream) (n : Nat) (bs : List Nat) :
    boundsOk s (writeChunk s n bs) := by
  by_cases h : s.pos + n ≤ s.ends
  · rw [writeChunk_ok s n bs h]
    refine ⟨rfl, fun _ => ?_, ?_⟩
    · show s.pos + n ≤ s.ends
      exact h
    · show s.pos ≤ s.pos + n
      omega
  · rw [writeChunk_err s n bs (by omega)]
    refine ⟨rfl, ?_, ?_⟩
    · show s.ends < s.pos + n
      omega
    · show s.pos ≤ s.pos + n
      omega

theorem boundsOk_pipe {s : Stream} {x : Except Stream Stream}
    {f : Stream → Except Stream Stream} (hx : boundsOk s x)
    (hf : ∀ s1, x = .ok s1 → boundsOk s1 (f s1)) : boundsOk s (pipe x f) := by
  cases x with
  | error e => simpa [pipe] using hx
  | ok s1 =>
    simp only [pipe_ok]
    have h1 : s1.ends = s.ends ∧ (s.pos ≤ s.ends → s1.pos ≤ s.ends) ∧ s.pos ≤ s1.pos := hx
    have h2 := hf s1 rfl
    cases hfs : f s1 with
    | ok s2 =>
      rw [hfs] at h2
      exact ⟨h2.1.trans h1.1, fun hle => by
        have := h2.2.1 (by rw [h1.1]; exact h1.2.1 hle)
        rw [h1.1] at this
        exact this, h1.2.2.trans h2.2.2⟩
    | error e =>
      rw [hfs] at h2
      exact ⟨h2.1.trans h1.1, h2.2.1, h1.2.2.trans h2.2.2⟩

mutual

theorem serialize_bounds : (v : Value) → (s : Stream) → boundsOk s (serialize v s)
  | .u8 x, s => by
    simp only [serialize]
    exact boundsOk_writeChunk s 1 _
  | .i8 x, s => by
    simp only [serialize]
    exact boundsOk_writeChunk s 1 _
  | .u16 x, s => by
    simp only [serialize]
    exact boundsOk_writeChunk s 2 _
  | .i16 x, s => by
    simp only [serialize]
    exact boundsOk_writeChunk s 2 _
  | .u32 x, s => by
    simp only [serialize]
    exact boundsOk_writeChunk s 4 _
  | .i32 x, s => by
    simp only [serialize]
    exact boundsOk_writeChunk s 4 _
  | .u64 x, s => by
    simp only [serialize]
    exact boundsOk_writeChunk s 8 _
  | .i64 x, s => by
    simp only [serialize]
    exact boundsOk_writeChunk s 8 _
  | .f32 x, s => by
    simp only [serialize]
    exact boundsOk_writeChunk s 4 _
  | .f64 x, s => by
    simp only [serialize]
    exact boundsOk_writeChunk s 8 _
  | .vbool b, s => by
    simp only [serialize]
    exact boundsOk_writeChunk s 1 _
  | .vstr bs, s => by
    simp only [serialize]
    apply boundsOk_pipe (boundsOk_writeChunk s 4 _)
    intro s1 _
    by_cases hpos : 0 < bs.length
    · rw [if_pos hpos]
      exact boundsOk_writeChunk s1 _ _
    · rw [if_neg hpos]
      exact boundsOk_refl s1
  | .vtime sec nsec, s => by
    simp only [serialize]
    apply boundsOk_pipe (boundsOk_writeChunk s 4 _)
    intro s1 _
    exact boundsOk_writeChunk s1 4 _
  | .vduration sec nsec, s => by
    simp only [serialize]
    apply boundsOk_pipe (boundsOk_writeChunk s 4 _)
    intro s1 _
    exact boundsOk_writeChunk s1 4 _
  | .vvec t es, s => by
    simp only [serialize]
    by_cases hs : t.isSimple = true
    · rw [if_pos hs]
      apply boundsOk_pipe (boundsOk_writeChunk s 4 _)
      intro s1 _
      by_cases hemp : es.isEmpty = true
      · rw [if_pos hemp]
        exact boundsOk_refl s1
      · rw [if_neg hemp]
        exact boundsOk_writeChunk s1 _ _
    · rw [if_neg hs]
      apply boundsOk_pipe (boundsOk_writeChunk s 4 _)
      intro s1 _
      exact serializeL_bounds es s1
  | .varr t es, s => by
    simp only [serialize]
    by_cases hs : t.isSimple = true
    · rw [if_pos hs]
      exact boundsOk_writeChunk s _ _
    · rw [if_neg hs]
      exact serializeL_bounds es s

theorem serializeL_bounds : (es : List Value) → (s : Stream) →
    boundsOk s (serializeL es s)
  | [], s => by
    simp only [serializeL]
    exact boundsOk_refl s
  | e :: es, s => by
    simp only [serializeL]
    apply boundsOk_pipe (serialize_bounds e s)
    intro s1 _
    exact serializeL_bounds es s1

end

/-- Cursor-bound outcome of a read step: same as `boundsOk`, and reads
additionally never touch the buffer contents. -/
def boundsOkR {a : Type} (s : Stream) : Except Stream (a × Stream) → Prop
  | .ok (_, s') => s'.buf = s.buf ∧ s'.ends = s.ends ∧
      (s.pos ≤ s.ends → s'.pos ≤ s.ends) ∧ s.pos ≤ s'.pos
  | .error e => e.buf = s.buf ∧ e.ends = s.ends ∧ e.ends < e.pos ∧ s.pos ≤ e.pos

theorem boundsOkR_ret {a : Type} (s : Stream) (v : a) :
    boundsOkR s (.ok (v, s)) :=
  ⟨rfl, rfl, fun h => h, Nat.le_refl _⟩

theorem boundsOkR_readChunk (s : Stream) (n : Nat) :
    boundsOkR s (readChunk s n) := by
  by_cases h : s.pos + n ≤ s.ends
  · rw [readChunk_ok s n h]
    refine ⟨rfl, rfl, fun _ => ?_, ?_⟩
    · show s.pos + n ≤ s.ends
      exact h
    · show s.pos ≤ s.pos + n
      omega
  · rw [readChunk_err s n (by omega)]
    refine ⟨rfl, rfl, ?_, ?_⟩
    · show s.ends < s.pos + n
      omega
    · show s.pos ≤ s.pos + n
      omega

theorem boundsOkR_pipe2 {a b : Type} {s : Stream} {x : Except Stream (a × Stream)}
    {f : a → Stream → Except Stream (b × Stream)} (hx : boundsOkR s x)
    (hf : ∀ v s1, x = .ok (v, s1) → boundsOkR s1 (f v s1)) :
    boundsOkR s (pipe2 x f) := by
  cases x with
  | error e => simpa [pipe2] using hx
  | ok p =>
    obtain ⟨v, s1⟩ := p
    simp only [pipe2_ok]
    have h1 : s1.buf = s.buf ∧ s1.ends = s.ends ∧
        (s.pos ≤ s.ends → s1.pos ≤ s.ends) ∧ s.pos ≤ s1.pos := hx
    have h2 := hf v s1 rfl
    cases hfs : f v s1 with
    | ok p2 =>
      obtain ⟨v2, s2⟩ := p2
      rw [hfs] at h2
      refine ⟨h2.1.trans h1.1, h2.2.1.trans h1.2.1, fun hle => ?_, h1.2.2.2.trans h2.2.2.2⟩
      have := h2.2.2.1 (by rw [h1.2.1]; exact h1.2.2.1 hle)
      rw [h1.2.1] at this
      exact this
    | error e =>
      rw [hfs] at h2
      exact ⟨h2.1.trans h1.1, h2.2.1.trans h1.2.1, h2.2.2.1, h1.2.2.2.trans h2.2.2.2⟩

mutual

theorem deserialize_bounds : (t : Ty) → (s : Stream) →
    boundsOkR s (deserialize t s)
  | .u8, s => by
    unfold deserialize
    apply boundsOkR_pipe2 (boundsOkR_readChunk s 1)
    intro v s1 _
    exact boundsOkR_ret s1 _
  | .i8, s => by
    unfold deserialize
    apply boundsOkR_pipe2 (boundsOkR_readChunk s 1)
    intro v s1 _
    exact boundsOkR_ret s1 _
  | .u16, s => by
    unfold deserialize
    apply boundsOkR_pipe2 (boundsOkR_readChunk s 2)
    intro v s1 _
    exact boundsOkR_ret s1 _
  | .i16, s => by
    unfold deserialize
    apply boundsOkR_pipe2 (boundsOkR_readChunk s 2)
    intro v s1 _
    exact boundsOkR_ret s1 _
  | .u32, s => by
    unfold deserialize
    apply boundsOkR_pipe2 (boundsOkR_readChunk s 4)
    intro v s1 _
    exact boundsOkR_ret s1 _
  | .i32, s => by
    unfold deserialize
    apply boundsOkR_pipe2 (boundsOkR_readChunk s 4)
    intro v s1 _
    exact boundsOkR_ret s1 _
  | .u64, s => by
    unfold deserialize
    apply boundsOkR_pipe2 (boundsOkR_readChunk s 8)
    intro v s1 _
    exact boundsOkR_ret s1 _
  | .i64, s => by
    unfold deserialize
    apply boundsOkR_pipe2 (boundsOkR_readChunk s 8)
    intro v s1 _
    exact boundsOkR_ret s1 _
  | .f32, s => by
    unfold deserialize
    apply boundsOkR_pipe2 (boundsOkR_readChunk s 4)
    intro v s1 _
    exact boundsOkR_ret s1 _
  | .f64, s => by
    unfold deserialize
    apply boundsOkR_pipe2 (boundsOkR_readChunk s 8)
    intro v s1 _
    exact boundsOkR_ret s1 _
  | .tbool, s => by
    unfold deserialize
    apply boundsOkR_pipe2 (boundsOkR_readChunk s 1)
    intro v s1 _
    exact boundsOkR_ret s1 _
  | .tstr, s => by
    unfold deserialize
    apply boundsOkR_pipe2 (boundsOkR_readChunk s 4)
    intro v s1 _
    dsimp only
    by_cases hpos : 0 < leNat v
    · rw [if_pos hpos]
      apply boundsOkR_pipe2 (boundsOkR_readChunk s1 _)
      intro v2 s2 _
      exact boundsOkR_ret s2 _
    · rw [if_neg hpos]
      exact boundsOkR_ret s1 _
  | .ttime, s => by
    unfold deserialize
    apply boundsOkR_pipe2 (boundsOkR_readChunk s 4)
    intro v s1 _
    apply boundsOkR_pipe2 (boundsOkR_readChunk s1 4)
    intro v2 s2 _
    exact boundsOkR_ret s2 _
  | .tduration, s => by
    unfold deserialize
    apply boundsOkR_pipe2 (boundsOkR_readChunk s 4)
    intro v s1 _
    apply boundsOkR_pipe2 (boundsOkR_readChunk s1 4)
    intro v2 s2 _
    exact boundsOkR_ret s2 _
  | .vec t, s => by
    unfold deserialize
    apply boundsOkR_pipe2 (boundsOkR_readChunk s 4)
    intro v s1 _
    dsimp only
    by_cases hs : t.isSimple = true
    · rw [if_pos hs]
      by_cases hpos : 0 < leNat v
      · rw [if_pos hpos]
        apply boundsOkR_pipe2 (boundsOkR_readChunk s1 _)
        intro v2 s2 _
        exact boundsOkR_ret s2 _
      · rw [if_neg hpos]
        exact boundsOkR_ret s1 _
    · rw [if_neg hs]
      apply boundsOkR_pipe2 (deserializeL_bounds t (leNat v) s1)
      intro v2 s2 _
      exact boundsOkR_ret s2 _
  | .arr t n, s => by
    unfold deserialize
    by_cases hs : t.isSimple = true
    · rw [if_pos hs]
      apply boundsOkR_pipe2 (boundsOkR_readChunk s _)
      intro v s1 _
      exact boundsOkR_ret s1 _
    · rw [if_neg hs]
      apply boundsOkR_pipe2 (deserializeL_bounds t n s)
      intro v s1 _
      exact boundsOkR_ret s1 _

theorem deserializeL_bounds : (t : Ty) → (n : Nat) → (s : Stream) →
    boundsOkR s (deserializeL t n s)
  | t, 0, s => by
    unfold deserializeL
    exact boundsOkR_ret s _
  | t, n + 1, s => by
    unfold deserializeL
    apply boundsOkR_pipe2 (deserialize_bounds t s)
    intro v s1 _
    apply boundsOkR_pipe2 (deserializeL_bounds t n s1)
    intro v2 s2 _
    exact boundsOkR_ret s2 _

end

theorem getBytes_setBytes_of_le (bs : List Nat) (buf : List Nat) (p n i : Nat)
    (h : p + n ≤ i) : getBytes (setBytes buf i bs) p n = getBytes buf p n := by
  induction bs generalizing buf i with
  | nil => rfl
  | cons b rest ih =>
    rw [setBytes, ih _ (i + 1) (by omega)]
    by_cases hi : i < buf.length
    · rw [List.set_eq_take_cons_drop b hi]
      have hlen : (buf.take i).length = i := List.length_take_of_le hi.le
      rw [getBytes, getBytes, List.drop_append_eq_append_drop, hlen]
      rw [List.take_append_eq_append_take]
      have h1 : (List.drop p (buf.take i)).length = i - p := by
        simp [List.length_drop, hlen]
      rw [h1, show n - (i - p) = 0 from by omega, List.take_zero, List.append_nil]
      rw [List.drop_take, List.take_take]
      rw [show min n (i - p) = n from by omega]
    · rw [List.set_eq_of_length_le (by omega)]

theorem encL_length_sum (es : List Value) :
    (encL es).length = (es.map (fun e => (enc e).length)).sum := by
  induction es with
  | nil => simp [encL]
  | cons e rest ih => simp [encL, ih]

/-- Modelled from the spec's words for claim C7: the per-element length —
the sum over the container of each element's individually computed
`serializationLength` — which the representative-element optimisation in
the fixed-size non-simple container codecs avoids computing. -/
def perElementLengthSum (es : List Value) : Nat :=
  (es.map serializationLength).sum

theorem perElementLengthSum_eq {t : Ty} : (es : List Value) → wtl t es = true →
    (encL es).length < W32 → perElementLengthSum es = (encL es).length
  | [], _, _ => by simp [perElementLengthSum, encL]
  | e :: es, hw, hbound => by
    rw [wtl] at hw
    simp only [Bool.and_eq_true, beq_iff_eq] at hw
    have hlcons : (encL (e :: es)).length = (enc e).length + (encL es).length := by
      simp [encL]
    have h1 : serializationLength e = (enc e).length := by
      rw [serializationLength, serializedLength_ok e 0 hw.1.2 (by simp [W32])]
      simp only [Nat.zero_add]
      exact Nat.mod_eq_of_lt (by omega)
    have h2 := perElementLengthSum_eq es hw.2 (by omega)
    simp only [perElementLengthSum, List.map_cons, List.sum_cons] at h2 ⊢
    rw [h1, h2, hlcons]

theorem wtl_replicate_u8 (n : Nat) : wtl .u8 (List.replicate n (.u8 0)) = true := by
  induction n with
  | zero => rfl
  | succ n ih => rw [List.replicate_succ, wtl]; simp [ih, wt, Value.ty]

theorem wbl_replicate_u8 (n : Nat) : wbl (List.replicate n (.u8 0)) = true := by
  induction n with
  | zero => rfl
  | succ n ih => rw [List.replicate_succ, wbl]; simp [ih, wb]

/-- C1: for every supported value (well-typed, with container and string
counts below 2^32) and every `OStream` with room for its encoding — the
end bound below 2^32, as the `uint32_t count` constructor argument of
every `OStream` enforces — the length-only pass `serializationLength v`
equals the exact number of bytes the write pass moves the cursor:
`serialize v s` succeeds and its final cursor is
`s.pos + serializationLength v`. -/
theorem spec_C1_length_pass_eq_write_pass (v : Value) (s : Stream)
    (hw : wt v = true) (hc : bcnt v = true)
    (hroom : s.pos + (enc v).length ≤ s.ends) (hend : s.ends < W32) :
    ∃ s', serialize v s = .ok s' ∧
      s'.pos = s.pos + serializationLength v := by
  have hlen : serializationLength v = (enc v).length := by
    rw [serializationLength, serializedLength_ok v 0 hw (by simp [W32])]
    simp only [Nat.zero_add]
    exact Nat.mod_eq_of_lt (by omega)
  refine ⟨_, serialize_ok v s hw hc hroom hend, ?_⟩
  rw [hlen]

theorem spec_C1_witness :
    ∃ s', serialize (.vvec .tstr [.vstr [104, 105]])
        (Stream.mkOver (List.replicate 10 0) 10) = .ok s' ∧
      s'.pos = (Stream.mkOver (List.replicate 10 0) 10).pos +
        serializationLength (.vvec .tstr [.vstr [104, 105]]) :=
  spec_C1_length_pass_eq_write_pass (.vvec .tstr [.vstr [104, 105]])
    (Stream.mkOver (List.replicate 10 0) 10)
    (by decide) (by decide) (by decide) (by decide)

/-- C3: `Stream::advance` raises the overrun failure (modelled as a `none`
first component, the `throwStreamOverrun()` call) precisely when the
requested length would take the cursor past the end bound, i.e. iff
`pos + n > ends`; when it does not raise, it returns the pre-advance
cursor `pos` and leaves the cursor at `pos + n`. -/
theorem spec_C3_advance_error_iff_overrun (s : Stream) (n : Nat) :
    ((s.advance n).1 = none ↔ s.ends < s.pos + n) ∧
    (s.pos + n ≤ s.ends →
      (s.advance n).1 = some s.pos ∧ (s.advance n).2 = ⟨s.buf, s.pos + n, s.ends⟩) := by
  constructor
  · by_cases h : s.ends < s.pos + n
    · simp [Stream.advance, h]
    · simp [Stream.advance, h]
  · intro h
    simp [Stream.advance, Nat.not_lt.mpr h]

theorem spec_C3_witness :
    ((Stream.mk [0, 0] 0 2).advance 1).1 = some 0 ∧
    ((Stream.mk [0, 0] 0 2).advance 1).2 = ⟨[0, 0], 1, 2⟩ :=
  (spec_C3_advance_error_iff_overrun ⟨[0, 0], 0, 2⟩ 1).2 (by decide)

/-- C4 counterexample: the claim says every operation, including a failing
advance, preserves cursor ≤ end.  In the source, `advance` moves `data_`
forward and only then checks the bound, so a failing advance leaves the
cursor strictly past `end_` before the overrun failure propagates: from a
stream with cursor 0 and end bound 1, `advance 2` raises with the cursor
left at 2 > 1. -/
theorem spec_C4_counterexample :
    ((Stream.mk [0] 0 1).advance 2).1 = none ∧
    ((Stream.mk [0] 0 1).advance 2).2.pos = 2 ∧
    (Stream.mk [0] 0 1).ends < ((Stream.mk [0] 0 1).advance 2).2.pos := by
  decide

/-- C4 (amended): every successful operation preserves cursor ≤ end — a
successful `advance` lands within the bound, and a successful write or
read pass started within bounds ends within bounds with the end bound
unchanged; a request to advance past the end is a hard failure that never
silently truncates (the cursor moves by exactly the requested length, and
the failure propagates out of the pass) — but the failing advance leaves
the stream's internal cursor past the end bound (cursor = pos + n > end)
rather than at-or-before it. -/
theorem spec_C4_cursor_bound_amended :
    (∀ (s : Stream) (n p : Nat) (s' : Stream),
      s.advance n = (some p, s') → s'.pos ≤ s.ends) ∧
    (∀ (s : Stream) (n : Nat) (s' : Stream),
      s.advance n = (none, s') → s.ends < s'.pos ∧ s'.pos = s.pos + n) ∧
    (∀ (v : Value) (s s' : Stream), s.pos ≤ s.ends → serialize v s = .ok s' →
      s'.pos ≤ s.ends ∧ s'.ends = s.ends) ∧
    (∀ (v : Value) (s e : Stream), serialize v s = .error e →
      e.ends < e.pos ∧ e.ends = s.ends) ∧
    (∀ (t : Ty) (s : Stream) (v : Value) (s' : Stream), s.pos ≤ s.ends →
      deserialize t s = .ok (v, s') → s'.pos ≤ s.ends ∧ s'.ends = s.ends) ∧
    (∀ (t : Ty) (s e : Stream), deserialize t s = .error e →
      e.ends < e.pos ∧ e.ends = s.ends) := by
  refine ⟨?_, ?_, ?_, ?_, ?_, ?_⟩
  · intro s n p s' h
    by_cases hle : s.ends < s.pos + n
    · simp [Stream.advance, hle] at h
    · simp [Stream.advance, hle] at h
      obtain ⟨-, rfl⟩ := h
      simp
      omega
  · intro s n s' h
    by_cases hle : s.ends < s.pos + n
    · simp [Stream.advance, hle] at h
      obtain ⟨-, rfl⟩ := h
      simp
      omega
    · simp [Stream.advance, hle] at h
  · intro v s s' hle h
    have hb := serialize_bounds v s
    rw [h] at hb
    exact ⟨hb.2.1 hle, hb.1⟩
  · intro v s e h
    have hb := serialize_bounds v s
    rw [h] at hb
    exact ⟨hb.2.1, hb.1⟩
  · intro t s v s' hle h
    have hb := deserialize_bounds t s
    rw [h] at hb
    exact ⟨hb.2.2.1 hle, hb.2.1⟩
  · intro t s e h
    have hb := deserialize_bounds t s
    rw [h] at hb
    exact ⟨hb.2.2.1, hb.2.1⟩

theorem spec_C4_witness :
    ((2 : Nat) ≤ 3) ∧
    ((1 : Nat) < 3 ∧ (3 : Nat) = 0 + 3) ∧
    ((2 : Nat) ≤ 2 ∧ (2 : Nat) = 2) ∧
    ((1 : Nat) < 4 ∧ (1 : Nat) = 1) ∧
    ((1 : Nat) ≤ 1 ∧ (1 : Nat) = 1) ∧
    ((0 : Nat) < 1 ∧ (0 : Nat) = 0) :=
  ⟨spec_C4_cursor_bound_amended.1 ⟨[0, 0, 0], 0, 3⟩ 2 0 ⟨[0, 0, 0], 2, 3⟩ (by decide),
   spec_C4_cursor_bound_amended.2.1 ⟨[9], 0, 1⟩ 3 ⟨[9], 3, 1⟩ (by decide),
   spec_C4_cursor_bound_amended.2.2.1 (.u16 513) ⟨[0, 0], 0, 2⟩
     ⟨[1, 2], 2, 2⟩ (by decide) rfl,
   spec_C4_cursor_bound_amended.2.2.2.1 (.u32 1) ⟨[0], 0, 1⟩ ⟨[0], 4, 1⟩ rfl,
   spec_C4_cursor_bound_amended.2.2.2.2.1 Ty.u8 ⟨[5], 0, 1⟩ (.u8 5) ⟨[5], 1, 1⟩
     (by decide)
     (by simpa using deserialize_ok (.u8 5) ⟨[5], 0, 1⟩ (by decide) (by decide)
           (by decide) (by decide) (by decide) (by decide)),
   spec_C4_cursor_bound_amended.2.2.2.2.2 Ty.u8 ⟨[], 0, 0⟩ ⟨[], 1, 0⟩
     (by unfold deserialize
         rw [readChunk_err ⟨[], 0, 0⟩ 1 (by decide)]
         rfl)⟩

/-- C9: the default (unspecialized) `Serializer<T>` delegates to the
value's own operations at the stream's current data pointer and never
calls `advance`: a default-codec write leaves the cursor, the end bound
and hence `getLength` unchanged (and is total — no bounds check guards the
bytes the value itself consumes); a default-codec read returns the stream
object untouched while assigning `__serialized_length := getLength` before
delegating; only `serializedLength` advances the stream, by the value's
self-reported `serializationLength()`. -/
theorem spec_C9_default_codec_frame (serFn : UserMsg → List Nat)
    (deserFn : List Nat → UserMsg → UserMsg) (t : UserMsg) (s : Stream) (c : Nat) :
    (defaultWrite serFn t s).pos = s.pos ∧
    (defaultWrite serFn t s).ends = s.ends ∧
    (defaultWrite serFn t s).getLength = s.getLength ∧
    (defaultRead deserFn t s).2 = s ∧
    (defaultRead deserFn t s).1 =
      deserFn (s.buf.drop s.pos) { t with serialized_length := s.getLength } ∧
    defaultSerializedLength t c = ladv c t.selfLen :=
  ⟨rfl, rfl, rfl, rfl, rfl, rfl⟩

theorem wt_vstr (bs : List Nat) : wt (.vstr bs) = true := by simp [wt]

theorem slen_vstr (bs : List Nat) :
    serializationLength (.vstr bs) = (4 + bs.length % W32) % W32 := by
  rw [serializationLength]
  unfold serializedLength
  rw [ladv_eq]
  simp only [W32]
  omega

theorem getBytes_setBytes_len (bs buf : List Nat) (i n : Nat)
    (hn : n = bs.length) (h : i + bs.length ≤ buf.length) :
    getBytes (setBytes buf i bs) i n = bs := by
  subst hn
  exact getBytes_setBytes_self bs buf i h

theorem writeChunk_cases (s : Stream) (n : Nat) (bs : List Nat) :
    (s.pos + n ≤ s.ends ∧
      writeChunk s n bs = .ok ⟨setBytes s.buf s.pos bs, s.pos + n, s.ends⟩) ∨
    (s.ends < s.pos + n ∧ writeChunk s n bs = .error ⟨s.buf, s.pos + n, s.ends⟩) := by
  by_cases h : s.pos + n ≤ s.ends
  · exact .inl ⟨h, writeChunk_ok s n bs h⟩
  · exact .inr ⟨by omega, writeChunk_err s n bs (by omega)⟩

/-- C2 (amended): for every representable value whose container and string
counts are below 2^32 and whose encoded size fits in the 32-bit stream
bound, the write pass into an exactly-sized OStream succeeds producing the
value's byte encoding, and an IStream constructed over exactly those bytes
deserializes — into a freshly constructed value, as `deserializeMessage`
does with a default-constructed message — back to a value equal to the
original (the bit patterns of the numeric fields are compared, which is
byte-for-byte equality for the fixed-layout types and structural equality
for strings and dynamic sequences). -/
theorem spec_C2_roundtrip_amended (v : Value) (hw : wt v = true)
    (hb : wb v = true) (hc : bcnt v = true) (hsize : (enc v).length < W32) :
    serialize v (Stream.mkOver (List.replicate (enc v).length 0) (enc v).length)
      = .ok ⟨enc v, (enc v).length, (enc v).length⟩ ∧
    deserialize v.ty (Stream.mkOver (enc v) (enc v).length)
      = .ok (v, ⟨enc v, (enc v).length, (enc v).length⟩) := by
  simp only [Stream.mkOver]
  constructor
  · rw [serialize_ok v ⟨List.replicate (enc v).length 0, 0, (enc v).length⟩
      hw hc (by simp) hsize]
    simp only [setBytes_full _ _ (by simp : (enc v).length
      = (List.replicate (enc v).length 0).length), Nat.zero_add]
  · have h := deserialize_ok v ⟨enc v, 0, (enc v).length⟩ hw hb hc
      (by simp [getBytes]) (by simp) hsize
    simpa using h

theorem spec_C2_amended_witness :
    serialize (.vvec .tstr [.vstr [104]])
        (Stream.mkOver (List.replicate 9 0) 9)
      = .ok ⟨enc (.vvec .tstr [.vstr [104]]), 9, 9⟩ ∧
    deserialize (.vec .tstr) (Stream.mkOver (enc (.vvec .tstr [.vstr [104]])) 9)
      = .ok (.vvec .tstr [.vstr [104]], ⟨enc (.vvec .tstr [.vstr [104]]), 9, 9⟩) :=
  spec_C2_roundtrip_amended (.vvec .tstr [.vstr [104]])
    (by decide) (by decide) (by decide) (by decide)

/-- C2 counterexample: the claim quantifies over every value of a
supported type, but the count prefix is the element count truncated to
`uint32_t`.  A `std::vector<uint8_t>` holding 2^32 elements writes the
count prefix `(uint32_t)2^32 = 0` and a bulk copy of `0 * 1` bytes, so the
whole encoding is the four zero bytes; a sufficiently large OStream exists
(the pass writes only 4 bytes and succeeds), yet deserializing exactly
those bytes yields the empty vector, not the original value. -/
theorem spec_C2_counterexample :
    wt (.vvec .u8 (List.replicate W32 (.u8 0))) = true ∧
    wb (.vvec .u8 (List.replicate W32 (.u8 0))) = true ∧
    serialize (.vvec .u8 (List.replicate W32 (.u8 0))) ⟨[0, 0, 0, 0], 0, 4⟩
      = .ok ⟨[0, 0, 0, 0], 4, 4⟩ ∧
    deserialize (.vec .u8) ⟨[0, 0, 0, 0], 0, 4⟩
      = .ok (.vvec .u8 [], ⟨[0, 0, 0, 0], 4, 4⟩) ∧
    Value.vvec .u8 [] ≠ Value.vvec .u8 (List.replicate W32 (.u8 0)) := by
  refine ⟨?_, ?_, ?_, ?_, ?_⟩
  · rw [wt]
    exact wtl_replicate_u8 W32
  · rw [wb]
    exact wbl_replicate_u8 W32
  · simp only [serialize]
    rw [if_pos (show Ty.u8.isSimple = true from rfl)]
    rw [writeChunk_ok ⟨[0, 0, 0, 0], 0, 4⟩ 4 _ (by decide)]
    simp only [pipe_ok, List.length_replicate]
    rw [show natLE 4 W32 = [0, 0, 0, 0] from by decide]
    rw [if_neg (by simp [List.isEmpty_iff, W32_pos.ne', List.replicate_eq_nil_iff])]
    rw [show W32 % W32 * Ty.u8.csize % W32 = 0 from by simp [Nat.mod_self]]
    rw [List.take_zero]
    rw [writeChunk_ok _ 0 [] (by decide)]
    rfl
  · have h := deserialize_ok (.vvec .u8 []) ⟨[0, 0, 0, 0], 0, 4⟩
      (by decide) (by decide) (by decide) (by decide) (by decide) (by decide)
    simpa [Value.ty, enc, encL, natLE_length] using h
  · intro h
    have h2 := congrArg (fun w => match w with
      | Value.vvec _ es => es.length
      | _ => 0) h
    simp only [List.length_replicate, List.length_nil] at h2
    exact absurd h2.symm W32_pos.ne'

/-- C7: the representative-element optimisation in the fixed-size
non-simple container length codecs — measure the FIRST element on a fresh
length stream and multiply by the element count (plus the 4-byte count
prefix for vectors) — computes exactly the sum of every element's
individually computed serialization length, under the fixed-size
well-typedness hypothesis (every element has the container's declared
fixed-size element type, hence the same encoded length) and in the
non-wrapping 32-bit range. -/
theorem spec_C7_representative_element_length (t : Ty) (hfx : t.isFixedSize = true)
    (hs : t.isSimple = false) :
    (∀ es : List Value, es ≠ [] → wtl t es = true → 4 + (encL es).length < W32 →
      serializationLength (.vvec t es) = 4 + perElementLengthSum es) ∧
    (∀ es : List Value, wtl t es = true → (encL es).length < W32 →
      serializationLength (.varr t es) = perElementLengthSum es) := by
  constructor
  · intro es _ hw hbound
    have h1 : serializationLength (.vvec t es) = 4 + (encL es).length := by
      rw [serializationLength, serializedLength_ok (.vvec t es) 0
        (by simp only [wt]; exact hw) (by simp [W32])]
      simp only [Nat.zero_add, enc, List.length_append, natLE_length]
      exact Nat.mod_eq_of_lt (by simpa using hbound)
    rw [h1, perElementLengthSum_eq es hw (by omega)]
  · intro es hw hbound
    have h1 : serializationLength (.varr t es) = (encL es).length := by
      rw [serializationLength, serializedLength_ok (.varr t es) 0
        (by simp only [wt]; exact hw) (by simp [W32])]
      simp only [Nat.zero_add, enc]
      exact Nat.mod_eq_of_lt hbound
    rw [h1, perElementLengthSum_eq es hw hbound]

theorem spec_C7_witness :
    serializationLength (.vvec .ttime [.vtime 1 2, .vtime 3 4]) =
      4 + perElementLengthSum [.vtime 1 2, .vtime 3 4] ∧
    serializationLength (.varr .ttime [.vtime 1 2, .vtime 3 4]) =
      perElementLengthSum [.vtime 1 2, .vtime 3 4] :=
  ⟨(spec_C7_representative_element_length .ttime rfl rfl).1
      [.vtime 1 2, .vtime 3 4] (by simp) (by decide) (by decide),
   (spec_C7_representative_element_length .ttime rfl rfl).2
      [.vtime 1 2, .vtime 3 4] (by decide) (by decide)⟩

/-- C10: every piece of length accounting is 32-bit unsigned arithmetic —
the LStream counter adds modulo 2^32 (with its argument truncated to 32
bits at the `uint32_t` call boundary), the string length codec advances by
`4 + (uint32_t)size`, the length pass always returns the true encoded size
reduced modulo 2^32, the string write pass emits `(uint32_t)size` (the
true length reduced modulo 2^32) as its 4-byte count prefix, and the
simple-vector bulk write advances the cursor by the wrapping 32-bit
product `(uint32_t)size * sizeof(T)`. -/
theorem spec_C10_length_arith_mod32 :
    (∀ v : Value, wt v = true → serializationLength v = (enc v).length % W32) ∧
    (∀ c len : Nat, ladv c len = (c + len % W32) % W32) ∧
    (∀ (bs : List Nat) (c : Nat),
      serializedLength (.vstr bs) c = ladv c (4 + bs.length % W32)) ∧
    (∀ (bs : List Nat) (s s' : Stream), s.ends ≤ s.buf.length →
      serialize (.vstr bs) s = .ok s' →
      getBytes s'.buf s.pos 4 = natLE 4 (bs.length % W32)) ∧
    (∀ (t : Ty) (es : List Value) (s s' : Stream), t.isSimple = true → es ≠ [] →
      serialize (.vvec t es) s = .ok s' →
      s'.pos = s.pos + 4 + es.length % W32 * t.csize % W32) := by
  refine ⟨?_, fun _ _ => rfl, fun _ _ => rfl, ?_, ?_⟩
  · intro v hw
    rw [serializationLength, serializedLength_ok v 0 hw (by simp [W32])]
    simp
  · intro bs s s' hbl h
    simp only [serialize] at h
    rcases writeChunk_cases s 4 (natLE 4 bs.length) with ⟨hle, heq⟩ | ⟨_, heq⟩
    · rw [heq] at h
      simp only [pipe_ok] at h
      have hpre : getBytes (setBytes s.buf s.pos (natLE 4 bs.length)) s.pos 4
          = natLE 4 (bs.length % W32) := by
        rw [getBytes_setBytes_len _ _ _ _ (natLE_length 4 _).symm
          (by rw [natLE_length]; omega)]
        rw [natLE_four_mod_W32]
      by_cases hpos : 0 < bs.length
      · rw [if_pos hpos] at h
        rcases writeChunk_cases ⟨setBytes s.buf s.pos (natLE 4 bs.length),
            s.pos + 4, s.ends⟩ (bs.length % W32) bs with ⟨hle2, heq2⟩ | ⟨_, heq2⟩
        · rw [heq2] at h
          simp only [Except.ok.injEq] at h
          subst h
          rw [getBytes_setBytes_of_le bs _ s.pos 4 (s.pos + 4) (by omega)]
          exact hpre
        · rw [heq2] at h
          cases h
      · rw [if_neg hpos] at h
        simp only [Except.ok.injEq] at h
        subst h
        exact hpre
    · rw [heq] at h
      simp only [pipe_error] at h
      cases h
  · intro t es s s' hs hne h
    simp only [serialize] at h
    rw [if_pos hs] at h
    rcases writeChunk_cases s 4 (natLE 4 es.length) with ⟨hle, heq⟩ | ⟨_, heq⟩
    · rw [heq] at h
      simp only [pipe_ok] at h
      rw [if_neg (by simp [List.isEmpty_iff, hne])] at h
      rcases writeChunk_cases ⟨setBytes s.buf s.pos (natLE 4 es.length),
          s.pos + 4, s.ends⟩ (es.length % W32 * t.csize % W32)
          ((encL es).take (es.length % W32 * t.csize % W32)) with
        ⟨hle2, heq2⟩ | ⟨_, heq2⟩
      · rw [heq2] at h
        simp only [Except.ok.injEq] at h
        subst h
        rfl
      · rw [heq2] at h
        cases h
    · rw [heq] at h
      simp only [pipe_error] at h
      cases h

theorem spec_C10_witness :
    serializationLength (.vstr [9, 9, 9]) = (enc (.vstr [9, 9, 9])).length % W32 ∧
    ladv (W32 - 1) 2 = 1 ∧
    getBytes [1, 0, 0, 0, 7] 0 4 = natLE 4 (([7] : List Nat).length % W32) ∧
    (6 : Nat) = 0 + 4 + [Value.u16 3].length % W32 * Ty.u16.csize % W32 :=
  ⟨spec_C10_length_arith_mod32.1 (.vstr [9, 9, 9]) (by decide),
   by decide,
   spec_C10_length_arith_mod32.2.2.2.1 [7] ⟨[0, 0, 0, 0, 0], 0, 5⟩
     ⟨[1, 0, 0, 0, 7], 5, 5⟩ (by decide) rfl,
   spec_C10_length_arith_mod32.2.2.2.2 Ty.u16 [.u16 3]
     ⟨[0, 0, 0, 0, 0, 0], 0, 6⟩ ⟨[1, 0, 0, 0, 3, 0], 6, 6⟩ rfl (by simp) rfl⟩

/-- C5 (amended): for every message value whose encoded size plus the
4-byte prefix stays below 2^32 (so the `uint32_t` size accounting does not
wrap), `serializeMessage` returns a buffer of exactly L + 4 bytes, where L
is the computed serialization length: the first 4 bytes are the 4-byte
unsigned integer L in the native layout (the prefix excludes itself),
immediately followed by the L bytes of the payload encoding — exactly the
bytes a plain write pass produces for the value — with the payload-start
marker at offset 4. -/
theorem spec_C5_envelope_framing (v : Value) (hw : wt v = true)
    (hc : bcnt v = true) (hsize : (enc v).length + 4 < W32) :
    serializeMessage v = some ⟨natLE 4 (serializationLength v) ++ enc v,
      serializationLength v + 4, some 4⟩ ∧
    serializationLength v = (enc v).length ∧
    (natLE 4 (serializationLength v) ++ enc v).length = serializationLength v + 4 := by
  have hlen : serializationLength v = (enc v).length := by
    rw [serializationLength, serializedLength_ok v 0 hw (by simp [W32])]
    simp only [Nat.zero_add]
    exact Nat.mod_eq_of_lt (by omega)
  have hnum : (serializationLength v + 4) % W32 = (enc v).length + 4 := by
    rw [hlen]
    exact Nat.mod_eq_of_lt hsize
  refine ⟨?_, hlen, by simp [natLE_length, hlen]; omega⟩
  rw [serializeMessage]
  simp only [hnum, Stream.mkOver]
  have harg : ((enc v).length + 4 + W32 - 4) % W32 = (enc v).length := by
    have h1 : (enc v).length + 4 + W32 - 4 = (enc v).length + W32 := by omega
    rw [h1, Nat.add_mod_right]
    exact Nat.mod_eq_of_lt (by omega)
  rw [harg]
  simp only [serialize]
  rw [writeChunk_ok ⟨List.replicate ((enc v).length + 4) 0, 0, (enc v).length + 4⟩ 4
    (natLE 4 (enc v).length) (by simp)]
  simp only [tryFrame_ok]
  rw [serialize_ok v ⟨setBytes (List.replicate ((enc v).length + 4) 0) 0
      (natLE 4 (enc v).length), 0 + 4, (enc v).length + 4⟩ hw hc
    (by simp; omega) (by simp; try omega)]
  simp only [tryFrame_ok]
  rw [show (0 : Nat) + 4 = 0 + (natLE 4 (enc v).length).length from by
    simp [natLE_length]]
  rw [← setBytes_append]
  rw [setBytes_full _ _ (by simp [natLE_length]; omega)]
  simp [hlen, natLE_length]

theorem spec_C5_amended_witness :
    serializeMessage (.vstr [104, 105]) = some ⟨natLE 4 (serializationLength (.vstr [104, 105]))
        ++ enc (.vstr [104, 105]), serializationLength (.vstr [104, 105]) + 4, some 4⟩ ∧
    serializationLength (.vstr [104, 105]) = (enc (.vstr [104, 105])).length ∧
    (natLE 4 (serializationLength (.vstr [104, 105])) ++ enc (.vstr [104, 105])).length
      = serializationLength (.vstr [104, 105]) + 4 :=
  spec_C5_envelope_framing (.vstr [104, 105]) (by decide) (by decide) (by decide)

/-- C5 counterexample: the claim quantifies over every message, but
`num_bytes` is computed with 32-bit arithmetic.  For a string of
2^32 - 6 bytes the computed serialization length L is 2^32 - 2, so
`num_bytes = (L + 4) mod 2^32 = 2`: the 2-byte allocation cannot hold the
4-byte length prefix, the first write raises the overrun failure, and
`serializeMessage` returns no buffer at all — not a buffer of L + 4
bytes. -/
theorem spec_C5_counterexample :
    wt (.vstr (List.replicate (W32 - 6) 0)) = true ∧
    serializationLength (.vstr (List.replicate (W32 - 6) 0)) = W32 - 2 ∧
    serializeMessage (.vstr (List.replicate (W32 - 6) 0)) = none := by
  have hslen : serializationLength (.vstr (List.replicate (W32 - 6) 0)) = W32 - 2 := by
    rw [slen_vstr, List.length_replicate]
    norm_num [W32]
  refine ⟨wt_vstr _, hslen, ?_⟩
  rw [serializeMessage]
  simp only [hslen, Stream.mkOver]
  rw [show (W32 - 2 + 4) % W32 = 2 from by norm_num [W32]]
  simp only [serialize]
  rw [writeChunk_err ⟨List.replicate 2 0, 0, 2⟩ 4 _ (by norm_num)]
  simp only [tryFrame_error]

/-- C6 (amended): a failed service reply is exactly the five bytes
`[0x00, 0x00, 0x00, 0x00, 0x00]` — status byte 0 followed by the 4-byte
zero length — with no payload and without encoding the message at all
(the result is the same record for every message value); a successful
reply whose payload length plus 5 stays below 2^32 is a (computed payload
length) + 5 byte buffer: status byte 1, the 4-byte payload length, then
the payload bytes. -/
theorem spec_C6_service_response (v : Value) :
    serializeServiceResponse false v = some ⟨[0, 0, 0, 0, 0], 5, none⟩ ∧
    (wt v = true → bcnt v = true → (enc v).length + 5 < W32 →
      serializeServiceResponse true v = some ⟨1 :: (natLE 4 (serializationLength v)
        ++ enc v), serializationLength v + 5, none⟩ ∧
      serializationLength v = (enc v).length) := by
  constructor
  · rfl
  · intro hw hc hsize
    have hlen : serializationLength v = (enc v).length := by
      rw [serializationLength, serializedLength_ok v 0 hw (by simp [W32])]
      simp only [Nat.zero_add]
      exact Nat.mod_eq_of_lt (by omega)
    have hnum : (serializationLength v + 5) % W32 = (enc v).length + 5 := by
      rw [hlen]
      exact Nat.mod_eq_of_lt hsize
    refine ⟨?_, hlen⟩
    rw [serializeServiceResponse, if_pos rfl]
    simp only [hnum, Stream.mkOver, if_pos]
    have harg : ((enc v).length + 5 + W32 - 5) % W32 = (enc v).length := by
      have h1 : (enc v).length + 5 + W32 - 5 = (enc v).length + W32 := by omega
      rw [h1, Nat.add_mod_right]
      exact Nat.mod_eq_of_lt (by omega)
    rw [harg]
    simp only [serialize]
    rw [writeChunk_ok ⟨List.replicate ((enc v).length + 5) 0, 0, (enc v).length + 5⟩ 1
      (natLE 1 1) (by simp)]
    simp only [tryFrame_ok]
    rw [writeChunk_ok ⟨setBytes (List.replicate ((enc v).length + 5) 0) 0 (natLE 1 1),
      0 + 1, (enc v).length + 5⟩ 4 (natLE 4 (enc v).length) (by simp)]
    simp only [tryFrame_ok]
    rw [serialize_ok v ⟨setBytes (setBytes (List.replicate ((enc v).length + 5) 0) 0
        (natLE 1 1)) (0 + 1) (natLE 4 (enc v).length), 0 + 1 + 4, (enc v).length + 5⟩
      hw hc (by simp; omega) (by simp; try omega)]
    simp only [tryFrame_ok]
    rw [show (0 : Nat) + 1 + 4 = 0 + 1 + (natLE 4 (enc v).length).length from by
      simp [natLE_length]]
    rw [← setBytes_append]
    rw [show (0 : Nat) + 1 = 0 + (natLE 1 1).length from by simp [natLE_length]]
    rw [← setBytes_append]
    rw [setBytes_full _ _ (by simp [natLE_length]; omega)]
    simp [hlen, natLE, Nat.zero_add]

theorem spec_C6_witness :
    serializeServiceResponse false (.u8 77) = some ⟨[0, 0, 0, 0, 0], 5, none⟩ ∧
    serializeServiceResponse true (.u8 77) = some ⟨1 :: (natLE 4
        (serializationLength (.u8 77)) ++ enc (.u8 77)),
      serializationLength (.u8 77) + 5, none⟩ :=
  ⟨(spec_C6_service_response (.u8 77)).1,
   ((spec_C6_service_response (.u8 77)).2 (by decide) (by decide) (by decide)).1⟩

/-- C6 counterexample: the success path's byte accounting is 32-bit.  For
a string of 2^32 - 7 bytes the computed payload length is 2^32 - 3, so
`num_bytes = (L + 5) mod 2^32 = 2`: after the status byte the 4-byte
length write overruns the 2-byte allocation and the function returns no
buffer — not a (payload length) + 5 byte envelope. -/
theorem spec_C6_counterexample :
    wt (.vstr (List.replicate (W32 - 7) 0)) = true ∧
    serializationLength (.vstr (List.replicate (W32 - 7) 0)) = W32 - 3 ∧
    serializeServiceResponse true (.vstr (List.replicate (W32 - 7) 0)) = none := by
  have hslen : serializationLength (.vstr (List.replicate (W32 - 7) 0)) = W32 - 3 := by
    rw [slen_vstr, List.length_replicate]
    norm_num [W32]
  refine ⟨wt_vstr _, hslen, ?_⟩
  rw [serializeServiceResponse, if_pos rfl]
  simp only [hslen, Stream.mkOver, if_pos]
  rw [show (W32 - 3 + 5) % W32 = 2 from by norm_num [W32]]
  simp only [serialize]
  rw [writeChunk_ok ⟨List.replicate 2 0, 0, 2⟩ 1 (natLE 1 1) (by norm_num)]
  simp only [tryFrame_ok]
  rw [writeChunk_err ⟨setBytes (List.replicate 2 0) 0 (natLE 1 1), 0 + 1, 2⟩ 4
    (natLE 4 ((2 + W32 - 5) % W32)) (by norm_num)]
  simp only [tryFrame_error]

/-- C8: in the bulk-copy fast paths for containers of simple elements the
bounds check of `advance(count * sizeof(element))` completes before the
raw copy: whenever the pass succeeds from an in-bounds cursor it ends
within the stream's buffer bound (the copy region lies inside the
buffer), and whenever the bulk advance would overrun, the overrun failure
is raised and no bytes of the element copy have been transferred — for a
vector at most the 4-byte count prefix has been written (the failing state
carries either the untouched buffer or the buffer with only the count
prefix), for an array the buffer is exactly the input buffer, and the
read paths never modify the buffer and produce no value on failure. -/
theorem spec_C8_bounds_check_before_bulk_copy (t : Ty) (es : List Value)
    (s : Stream) (hs : t.isSimple = true) :
    (∀ e, serialize (.vvec t es) s = .error e →
      e.ends = s.ends ∧ e.ends < e.pos ∧
      (e.buf = s.buf ∨ e.buf = setBytes s.buf s.pos (natLE 4 es.length))) ∧
    (∀ s', s.pos ≤ s.ends → serialize (.vvec t es) s = .ok s' → s'.pos ≤ s.ends) ∧
    (∀ e, serialize (.varr t es) s = .error e →
      e.ends = s.ends ∧ e.ends < e.pos ∧ e.buf = s.buf) ∧
    (∀ s', s.pos ≤ s.ends → serialize (.varr t es) s = .ok s' → s'.pos ≤ s.ends) ∧
    (∀ e, deserialize (.vec t) s = .error e →
      e.buf = s.buf ∧ e.ends = s.ends ∧ e.ends < e.pos) ∧
    (∀ v s', s.pos ≤ s.ends → deserialize (.vec t) s = .ok (v, s') → s'.pos ≤ s.ends) ∧
    (∀ n e, deserialize (.arr t n) s = .error e →
      e.buf = s.buf ∧ e.ends = s.ends ∧ e.ends < e.pos) ∧
    (∀ n v s', s.pos ≤ s.ends → deserialize (.arr t n) s = .ok (v, s') →
      s'.pos ≤ s.ends) := by
  refine ⟨?_, ?_, ?_, ?_, ?_, ?_, ?_, ?_⟩
  · intro e h
    simp only [serialize, if_pos hs] at h
    rcases writeChunk_cases s 4 (natLE 4 es.length) with ⟨hle, heq⟩ | ⟨hlt, heq⟩
    · rw [heq] at h
      simp only [pipe_ok] at h
      by_cases hemp : es.isEmpty = true
      · rw [if_pos hemp] at h
        cases h
      · rw [if_neg hemp] at h
        rcases writeChunk_cases ⟨setBytes s.buf s.pos (natLE 4 es.length),
            s.pos + 4, s.ends⟩ (es.length % W32 * t.csize % W32)
            ((encL es).take (es.length % W32 * t.csize % W32)) with
          ⟨hle2, heq2⟩ | ⟨hlt2, heq2⟩
        · rw [heq2] at h
          cases h
        · rw [heq2] at h
          simp only [Except.error.injEq] at h
          subst h
          exact ⟨rfl, by simpa using hlt2, .inr rfl⟩
    · rw [heq] at h
      simp only [pipe_error, Except.error.injEq] at h
      subst h
      exact ⟨rfl, by simpa using hlt, .inl rfl⟩
  · intro s' hle h
    have hb := serialize_bounds (.vvec t es) s
    rw [h] at hb
    exact hb.2.1 hle
  · intro e h
    simp only [serialize, if_pos hs] at h
    rcases writeChunk_cases s (es.length * t.csize % W32)
        ((encL es).take (es.length * t.csize % W32)) with ⟨hle, heq⟩ | ⟨hlt, heq⟩
    · rw [heq] at h
      cases h
    · rw [heq] at h
      simp only [Except.error.injEq] at h
      subst h
      exact ⟨rfl, by simpa using hlt, rfl⟩
  · intro s' hle h
    have hb := serialize_bounds (.varr t es) s
    rw [h] at hb
    exact hb.2.1 hle
  · intro e h
    have hb := deserialize_bounds (.vec t) s
    rw [h] at hb
    exact ⟨hb.1, hb.2.1, hb.2.2.1⟩
  · intro v s' hle h
    have hb := deserialize_bounds (.vec t) s
    rw [h] at hb
    exact hb.2.2.1 hle
  · intro n e h
    have hb := deserialize_bounds (.arr t n) s
    rw [h] at hb
    exact ⟨hb.1, hb.2.1, hb.2.2.1⟩
  · intro n v s' hle h
    have hb := deserialize_bounds (.arr t n) s
    rw [h] at hb
    exact hb.2.2.1 hle

theorem spec_C8_witness :
    ((4 : Nat) = 4 ∧ (4 : Nat) < 5 ∧
      ([1, 0, 0, 0] = ([0, 0, 0, 0] : List Nat) ∨
       [1, 0, 0, 0] = setBytes [0, 0, 0, 0] 0 (natLE 4 [Value.u8 9].length))) ∧
    ((1 : Nat) = 1 ∧ (1 : Nat) < 2 ∧ ([0] : List Nat) = [0]) ∧
    ((2 : Nat) ≤ 2) ∧
    (([] : List Nat) = [] ∧ (0 : Nat) = 0 ∧ (0 : Nat) < 4) :=
  ⟨(spec_C8_bounds_check_before_bulk_copy .u8 [.u8 9]
      ⟨[0, 0, 0, 0], 0, 4⟩ rfl).1 ⟨[1, 0, 0, 0], 5, 4⟩ rfl,
   (spec_C8_bounds_check_before_bulk_copy .u8 [.u8 9, .u8 8]
      ⟨[0], 0, 1⟩ rfl).2.2.1 ⟨[0], 2, 1⟩ rfl,
   (spec_C8_bounds_check_before_bulk_copy .u8 [.u8 9, .u8 8]
      ⟨[0, 0], 0, 2⟩ rfl).2.2.2.1 ⟨[9, 8], 2, 2⟩ (by decide) rfl,
   (spec_C8_bounds_check_before_bulk_copy .u8 [.u8 9] ⟨[], 0, 0⟩ rfl).2.2.2.2.1
     ⟨[], 4, 0⟩
     (by unfold deserialize
         rw [readChunk_err ⟨[], 0, 0⟩ 4 (by decide)]
         rfl)⟩

end Ros.Serialization
